import Mathlib

/-!
Verification of the `conspiracy` configuration / feature-flag crates against
their specification.

The development shallowly embeds the code generator of
`conspiracy_macros/src/config.rs` and `conspiracy_macros/src/feature_control.rs`
and the runtime of `conspiracy/src/config.rs` and
`conspiracy/src/feature_control.rs`.

Modelling conventions:
* A parsed `NestableStruct` (the `config_struct!` input) is a tree of fields;
  field identifiers are modelled by their positions in the field list (field
  names are unique within a node), so an access path `self.a.b.c` becomes a
  list of indices.
* Leaf values are opaque and modelled as `Nat`.
* `Arc<T>` is modelled as an address (`Nat`) paired with the pointee; `clone`
  preserves the address, `Arc::new` allocates (the model uses address `0`,
  deep equality never looks at addresses, mirroring `PartialEq for Arc<T>`
  which compares pointees).
-/

namespace Conspiracy

/-! ## Schema model: the parsed `NestableStruct` tree

`NItem.leaf restart` is a plain field (`NestableField::Field`) whose `restart`
flag records whether the field carries the attribute recognized by
`build_restart_comparison_for_field` (`attr.path().is_ident("restart")`).
`NItem.node restart ty fields` is a field holding an inline nested struct
declaration (`NestableField::Struct`): the flag is the attribute on the outer
field, `ty` the nested struct type identifier, `fields` its field list.
A whole schema is the root type identifier together with a field list. -/

mutual

inductive NItem : Type where
  | leaf (restart : Bool)
  | node (restart : Bool) (ty : String) (fields : NFields)
deriving DecidableEq

inductive NFields : Type where
  | nil
  | cons (hd : NItem) (tl : NFields)
deriving DecidableEq

end

/-! ## Snapshot values

A value of a generated Snapshot struct: leaves hold opaque values, nested
fields hold `Arc<Child>` (an address plus the child struct's fields). -/

mutual

inductive SnapItem : Type where
  | leaf (v : Nat)
  | node (addr : Nat) (fields : SnapFields)
deriving DecidableEq

inductive SnapFields : Type where
  | nil
  | cons (hd : SnapItem) (tl : SnapFields)
deriving DecidableEq

end

/-- Number of fields in a field list. -/
def SnapFields.len : SnapFields → Nat
  | .nil => 0
  | .cons _ tl => 1 + tl.len

/-! ## Derived `PartialEq`

The generated structs derive `PartialEq`; `Arc<T>` compares pointees, so
equality is deep and ignores addresses. -/

mutual

def eqItem : SnapItem → SnapItem → Bool
  | .leaf v, .leaf w => v == w
  | .node _ fs, .node _ gs => eqFields fs gs
  | _, _ => false

def eqFields : SnapFields → SnapFields → Bool
  | .nil, .nil => true
  | .cons f fs, .cons g gs => eqItem f g && eqFields fs gs
  | _, _ => false

end

/-! ## Conformance of a value to a schema

The Rust values are statically typed: a Snapshot of a node type always has
exactly the declared fields with the declared shapes.  The embedding makes
this typing explicit. -/

mutual

def conformsItem : NItem → SnapItem → Bool
  | .leaf _, .leaf _ => true
  | .node _ _ nfs, .node _ sfs => conformsFields nfs sfs
  | _, _ => false

def conformsFields : NFields → SnapFields → Bool
  | .nil, .nil => true
  | .cons n ns, .cons s ss => conformsItem n s && conformsFields ns ss
  | _, _ => false

end

/-! ## Field access paths -/

/-- Positional field lookup in a struct value. -/
def SnapFields.get : SnapFields → Nat → Option SnapItem
  | .nil, _ => none
  | .cons f _, 0 => some f
  | .cons _ fs, n + 1 => fs.get n

/-- Walk an access path starting from an item (descending through nested
structs; `Arc` dereferences implicitly, as in the generated field chains). -/
def getItemPath : SnapItem → List Nat → Option SnapItem
  | a, [] => some a
  | .node _ fs, i :: p =>
    match fs.get i with
    | some it => getItemPath it p
    | none => none
  | .leaf _, _ :: _ => none

/-- Walk an access path starting from a struct's field list. -/
def getPath (fs : SnapFields) : List Nat → Option SnapItem
  | [] => none
  | i :: p =>
    match fs.get i with
    | some it => getItemPath it p
    | none => none

/-- Positional lookup in a schema field list. -/
def NFields.get : NFields → Nat → Option NItem
  | .nil, _ => none
  | .cons f _, 0 => some f
  | .cons _ fs, n + 1 => fs.get n

/-! ## The generated restart comparison (`build_restart_comparison`)

`build_restart_comparison_for_struct` walks the parsed declaration keeping a
`lineage` of field identifiers; for every field carrying the restart
attribute (`build_restart_comparison_for_field`) it pushes the comparison
`self.lineage.field != other.lineage.field` (`comparison_for_field`), and for
a nested struct field it first checks the field's own attribute and then
recurses into the nested declaration.  A comparison is represented by the
access path of the compared field. -/

mutual

def build_restart_comparison_for_struct (lineage : List Nat) (idx : Nat) :
    NFields → List (List Nat)
  | .nil => []
  | .cons f fs =>
    build_restart_comparison_for_field lineage idx f ++
      build_restart_comparison_for_struct lineage (idx + 1) fs

def build_restart_comparison_for_field (lineage : List Nat) (idx : Nat) :
    NItem → List (List Nat)
  | .leaf r => if r then [lineage ++ [idx]] else []
  | .node r _ cfs =>
    (if r then [lineage ++ [idx]] else []) ++
      build_restart_comparison_for_struct (lineage ++ [idx]) 0 cfs

end

/-- The comparisons collected by `build_restart_comparison` for a whole
declaration (empty lineage, fields in declaration order). -/
def build_restart_comparison (fields : NFields) : List (List Nat) :=
  build_restart_comparison_for_struct [] 0 fields

/-- One generated comparison `self.path != other.path` evaluated on two
snapshot values (`!=` is the negation of the derived deep `PartialEq`). -/
def pathNe (s1 s2 : SnapFields) (p : List Nat) : Bool :=
  match getPath s1 p, getPath s2 p with
  | some a, some b => !(eqItem a b)
  | _, _ => false

/-- The body of the generated `restart_required`: the short-circuiting OR of
all collected comparisons, `false` when no field was tagged. -/
def restart_required (fields : NFields) (s1 s2 : SnapFields) : Bool :=
  (build_restart_comparison fields).any (pathNe s1 s2)

/-! ## Specification view: transitively tagged leaves

Spec 4.1: collect, across the whole subtree, every field tagged
triggers-restart, where a tag on a field holding a nested node is equivalent
to tagging every direct field of that node.  Unfolding that equivalence
recursively, a *leaf* is transitively tagged iff it is tagged itself or lies
below a tagged nested field.  `specTransTaggedLeaves` lists the access paths
of all transitively tagged leaves; it is written from the specification text
and compared against the code-derived `build_restart_comparison`. -/

mutual

def specTransLeavesStruct (tagged : Bool) (lineage : List Nat) (idx : Nat) :
    NFields → List (List Nat)
  | .nil => []
  | .cons f fs =>
    specTransLeavesItem tagged lineage idx f ++
      specTransLeavesStruct tagged lineage (idx + 1) fs

def specTransLeavesItem (tagged : Bool) (lineage : List Nat) (idx : Nat) :
    NItem → List (List Nat)
  | .leaf r => if r || tagged then [lineage ++ [idx]] else []
  | .node r _ cfs => specTransLeavesStruct (tagged || r) (lineage ++ [idx]) 0 cfs

end

/-- All transitively tagged leaf paths of a declaration. -/
def specTransTaggedLeaves (fields : NFields) : List (List Nat) :=
  specTransLeavesStruct false [] 0 fields

/-- Inequality of the leaf values found at path `p` in the two snapshots
(false when the path does not address a leaf in both). -/
def leafNe (s1 s2 : SnapFields) (p : List Nat) : Bool :=
  match getPath s1 p, getPath s2 p with
  | some (.leaf v), some (.leaf w) => !(v == w)
  | _, _ => false

/-! ## Recursive forms of the two comparison semantics

To reason by structural induction the path-based definitions are related to
recursive ones: `rrFields` computes the OR of the generated comparisons field
by field, `specFields` the OR over transitively tagged leaves. -/

mutual

def rrItem : NItem → SnapItem → SnapItem → Bool
  | .leaf r, .leaf v, .leaf w => r && !(v == w)
  | .node r _ cfs, .node _ afs, .node _ bfs =>
    (r && !(eqFields afs bfs)) || rrFields cfs afs bfs
  | _, _, _ => false

def rrFields : NFields → SnapFields → SnapFields → Bool
  | .cons f fs, .cons a as, .cons b bs => rrItem f a b || rrFields fs as bs
  | _, _, _ => false

end

mutual

def specItem (tagged : Bool) : NItem → SnapItem → SnapItem → Bool
  | .leaf r, .leaf v, .leaf w => (r || tagged) && !(v == w)
  | .node r _ cfs, .node _ afs, .node _ bfs => specFields (tagged || r) cfs afs bfs
  | _, _, _ => false

def specFields (tagged : Bool) : NFields → SnapFields → SnapFields → Bool
  | .cons f fs, .cons a as, .cons b bs =>
    specItem tagged f a b || specFields tagged fs as bs
  | _, _, _ => false

end

/-! ## Compact mirror types, `compact` and `arcify`

`generate_compact_struct` emits for every node a fully owned `Compact` mirror
(no `Arc`).  `compact` (`Snapshot -> Compact`) duplicates nested children into
owned values: `#ident: (*self.#ident).clone().compact()`.  `arcify`
(`Compact -> Snapshot`) wraps children back into shared pointers:
`#ident: self.#ident.arcify()` with `Arc::new` at each node. -/

mutual

inductive CompactItem : Type where
  | leaf (v : Nat)
  | node (fields : CompactFields)
deriving DecidableEq

inductive CompactFields : Type where
  | nil
  | cons (hd : CompactItem) (tl : CompactFields)
deriving DecidableEq

end

mutual

def compactItem : SnapItem → CompactItem
  | .leaf v => .leaf v
  | .node _ fs => .node (compactFields fs)

def compactFields : SnapFields → CompactFields
  | .nil => .nil
  | .cons f fs => .cons (compactItem f) (compactFields fs)

end

mutual

def arcifyItem : CompactItem → SnapItem
  | .leaf v => .leaf v
  | .node fs => .node 0 (arcifyFields fs)

def arcifyFields : CompactFields → SnapFields
  | .nil => .nil
  | .cons f fs => .cons (arcifyItem f) (arcifyFields fs)

end

/-! ## C3: the freeze/compact round trip -/

mutual

theorem arcify_compactItem (x : SnapItem) :
    eqItem (arcifyItem (compactItem x)) x = true := by
  match x with
  | .leaf v => simp [compactItem, arcifyItem, eqItem]
  | .node a fs =>
    simp only [compactItem, arcifyItem, eqItem]
    exact arcify_compactFields fs

theorem arcify_compactFields (xs : SnapFields) :
    eqFields (arcifyFields (compactFields xs)) xs = true := by
  match xs with
  | .nil => simp [compactFields, arcifyFields, eqFields]
  | .cons f fs =>
    simp only [compactFields, arcifyFields, eqFields, Bool.and_eq_true]
    exact ⟨arcify_compactItem f, arcify_compactFields fs⟩

end

/-- Claim C3: for every Snapshot instance `x` of a generated node type, the
round trip `x.compact().arcify()` yields a value deep-equal to `x` (deep
equality is the derived `PartialEq`, which compares `Arc` pointees). -/
theorem claim_C3_compact_arcify_roundtrip (x : SnapFields) :
    eqFields (arcifyFields (compactFields x)) x = true :=
  arcify_compactFields x

/-! ## Relative path collectors

The source accumulates the lineage prefix while recursing; for induction it
is convenient to collect paths relative to the current node and prefix them
afterwards.  The two presentations are proved equal. -/

mutual

def collectRelFields (i : Nat) : NFields → List (List Nat)
  | .nil => []
  | .cons f fs =>
    (collectRelItemPaths f).map (fun p => i :: p) ++ collectRelFields (i + 1) fs

def collectRelItemPaths : NItem → List (List Nat)
  | .leaf r => if r then [[]] else []
  | .node r _ cfs => (if r then [[]] else []) ++ collectRelFields 0 cfs

end

mutual

theorem collect_struct_lineage (lineage : List Nat) (i : Nat) (fs : NFields) :
    build_restart_comparison_for_struct lineage i fs =
      (collectRelFields i fs).map (fun p => lineage ++ p) := by
  match fs with
  | .nil => simp [build_restart_comparison_for_struct, collectRelFields]
  | .cons f tl =>
    rw [build_restart_comparison_for_struct, collectRelFields,
      collect_field_lineage lineage i f, collect_struct_lineage lineage (i + 1) tl]
    simp [List.map_map, Function.comp]

theorem collect_field_lineage (lineage : List Nat) (i : Nat) (f : NItem) :
    build_restart_comparison_for_field lineage i f =
      ((collectRelItemPaths f).map (fun p => i :: p)).map (fun p => lineage ++ p) := by
  match f with
  | .leaf r =>
    cases r <;>
      simp [build_restart_comparison_for_field, collectRelItemPaths]
  | .node r ty cfs =>
    rw [build_restart_comparison_for_field, collectRelItemPaths,
      collect_struct_lineage (lineage ++ [i]) 0 cfs]
    cases r <;> simp [List.map_map, Function.comp]

end

theorem build_restart_comparison_eq_rel (fields : NFields) :
    build_restart_comparison fields = collectRelFields 0 fields := by
  rw [build_restart_comparison, collect_struct_lineage]
  simp

/-! ## Evaluating the collected comparisons -/

/-- Suffix of a field list starting at position `i`. -/
def SnapFields.drop : Nat → SnapFields → SnapFields
  | 0, s => s
  | _ + 1, .nil => .nil
  | n + 1, .cons _ tl => SnapFields.drop n tl

theorem drop_cons_get : ∀ (i : Nat) (s : SnapFields) (a : SnapItem)
    (tl : SnapFields), s.drop i = .cons a tl →
    s.get i = some a ∧ s.drop (i + 1) = tl := by
  intro i
  induction i with
  | zero =>
    intro s a tl h
    cases s with
    | nil => exact absurd h (by simp [SnapFields.drop])
    | cons f fs =>
      rw [SnapFields.drop] at h
      cases h
      exact ⟨rfl, by rw [SnapFields.drop, SnapFields.drop]⟩
  | succ n ih =>
    intro s a tl h
    cases s with
    | nil => exact absurd h (by simp [SnapFields.drop])
    | cons f fs =>
      rw [SnapFields.drop] at h
      obtain ⟨h1, h2⟩ := ih fs a tl h
      refine ⟨h1, ?_⟩
      rw [SnapFields.drop]
      exact h2

/-- A generated comparison evaluated relative to an item (the item itself for
the empty path, a descendant otherwise). -/
def pathNeItem (a b : SnapItem) (p : List Nat) : Bool :=
  match getItemPath a p, getItemPath b p with
  | some x, some y => !(eqItem x y)
  | _, _ => false

theorem any_congrOn {α : Type} {l : List α} {f g : α → Bool}
    (h : ∀ x ∈ l, f x = g x) : l.any f = l.any g := by
  induction l with
  | nil => rfl
  | cons x xs ih =>
    simp only [List.any_cons]
    rw [h x (by simp), ih (fun y hy => h y (by simp [hy]))]

theorem pathNe_cons (AS BS : SnapFields) (i : Nat) (p : List Nat)
    (a b : SnapItem) (ha : AS.get i = some a) (hb : BS.get i = some b) :
    pathNe AS BS (i :: p) = pathNeItem a b p := by
  simp [pathNe, getPath, pathNeItem, ha, hb]

theorem pathNeItem_node (ad bd : Nat) (afs bfs : SnapFields) (j : Nat)
    (q : List Nat) :
    pathNeItem (.node ad afs) (.node bd bfs) (j :: q) = pathNe afs bfs (j :: q) := by
  simp [pathNeItem, getItemPath, pathNe, getPath]

theorem collectRelFields_mem_cons : ∀ (fs : NFields) (i : Nat) (p : List Nat),
    p ∈ collectRelFields i fs → ∃ j q, p = j :: q := by
  intro fs
  match fs with
  | .nil => intro i p h; exact absurd h (by simp [collectRelFields])
  | .cons f tl =>
    intro i p h
    rw [collectRelFields] at h
    rcases List.mem_append.mp h with h1 | h2
    · obtain ⟨q, _, hq⟩ := List.mem_map.mp h1
      exact ⟨i, q, hq.symm⟩
    · exact collectRelFields_mem_cons tl (i + 1) p h2

mutual

theorem collect_any_eq_rrFields : ∀ (fs : NFields) (i : Nat)
    (AS BS : SnapFields), conformsFields fs (AS.drop i) = true →
    conformsFields fs (BS.drop i) = true →
    (collectRelFields i fs).any (pathNe AS BS) =
      rrFields fs (AS.drop i) (BS.drop i) := by
  intro fs i AS BS hA hB
  match fs with
  | .nil =>
    cases hA2 : AS.drop i <;> cases hB2 : BS.drop i <;>
      simp [collectRelFields, rrFields]
  | .cons f tl =>
    cases hA2 : AS.drop i with
    | nil => rw [hA2] at hA; exact absurd hA (by simp [conformsFields])
    | cons a atl =>
      cases hB2 : BS.drop i with
      | nil => rw [hB2] at hB; exact absurd hB (by simp [conformsFields])
      | cons b btl =>
        rw [hA2] at hA
        rw [hB2] at hB
        rw [conformsFields, Bool.and_eq_true] at hA hB
        obtain ⟨hga, hda⟩ := drop_cons_get i AS a atl hA2
        obtain ⟨hgb, hdb⟩ := drop_cons_get i BS b btl hB2
        rw [collectRelFields, List.any_append, List.any_map, rrFields]
        have h1 : ((collectRelItemPaths f).any (pathNe AS BS ∘ fun p => i :: p)) =
            (collectRelItemPaths f).any (pathNeItem a b) := by
          refine any_congrOn ?_
          intro q _
          simp only [Function.comp]
          exact pathNe_cons AS BS i q a b hga hgb
        rw [h1, collect_any_eq_rrItem f a b hA.1 hB.1]
        have h2 := collect_any_eq_rrFields tl (i + 1) AS BS
          (by rw [hda]; exact hA.2) (by rw [hdb]; exact hB.2)
        rw [hda, hdb] at h2
        rw [h2]

theorem collect_any_eq_rrItem : ∀ (f : NItem) (a b : SnapItem),
    conformsItem f a = true → conformsItem f b = true →
    (collectRelItemPaths f).any (pathNeItem a b) = rrItem f a b := by
  intro f a b hA hB
  match f with
  | .leaf r =>
    cases a with
    | node _ _ => exact absurd hA (by simp [conformsItem])
    | leaf v =>
      cases b with
      | node _ _ => exact absurd hB (by simp [conformsItem])
      | leaf w =>
        cases r <;>
          simp [collectRelItemPaths, rrItem, pathNeItem, getItemPath, eqItem]
  | .node r ty cfs =>
    cases a with
    | leaf _ => exact absurd hA (by simp [conformsItem])
    | node ad afs =>
      cases b with
      | leaf _ => exact absurd hB (by simp [conformsItem])
      | node bd bfs =>
        rw [conformsItem] at hA hB
        rw [collectRelItemPaths, List.any_append, rrItem]
        have h1 : (collectRelFields 0 cfs).any (pathNeItem (.node ad afs) (.node bd bfs)) =
            (collectRelFields 0 cfs).any (pathNe afs bfs) := by
          refine any_congrOn ?_
          intro q hq
          obtain ⟨j, q2, hjq⟩ := collectRelFields_mem_cons cfs 0 q hq
          subst hjq
          exact pathNeItem_node ad bd afs bfs j q2
        rw [h1]
        have h2 := collect_any_eq_rrFields cfs 0 afs bfs
          (by rw [SnapFields.drop]; exact hA) (by rw [SnapFields.drop]; exact hB)
        simp only [SnapFields.drop] at h2
        rw [h2]
        have h3 : pathNeItem (SnapItem.node ad afs) (SnapItem.node bd bfs) [] =
            !(eqFields afs bfs) := by
          simp [pathNeItem, getItemPath, eqItem]
        cases r <;> simp [h3]

end

/-! ## Relative form of the transitively tagged leaves -/

mutual

def specRelFields (tagged : Bool) (i : Nat) : NFields → List (List Nat)
  | .nil => []
  | .cons f fs =>
    (specRelItemPaths tagged f).map (fun p => i :: p) ++
      specRelFields tagged (i + 1) fs

def specRelItemPaths (tagged : Bool) : NItem → List (List Nat)
  | .leaf r => if r || tagged then [[]] else []
  | .node r _ cfs => specRelFields (tagged || r) 0 cfs

end

mutual

theorem spec_struct_lineage (tagged : Bool) (lineage : List Nat) (i : Nat)
    (fs : NFields) :
    specTransLeavesStruct tagged lineage i fs =
      (specRelFields tagged i fs).map (fun p => lineage ++ p) := by
  match fs with
  | .nil => simp [specTransLeavesStruct, specRelFields]
  | .cons f tl =>
    rw [specTransLeavesStruct, specRelFields,
      spec_item_lineage tagged lineage i f, spec_struct_lineage tagged lineage (i + 1) tl]
    simp [List.map_map, Function.comp]

theorem spec_item_lineage (tagged : Bool) (lineage : List Nat) (i : Nat)
    (f : NItem) :
    specTransLeavesItem tagged lineage i f =
      ((specRelItemPaths tagged f).map (fun p => i :: p)).map
        (fun p => lineage ++ p) := by
  match f with
  | .leaf r =>
    cases r <;> cases tagged <;>
      simp [specTransLeavesItem, specRelItemPaths]
  | .node r ty cfs =>
    rw [specTransLeavesItem, specRelItemPaths,
      spec_struct_lineage (tagged || r) (lineage ++ [i]) 0 cfs]
    simp [List.map_map, Function.comp]

end

theorem specTransTaggedLeaves_eq_rel (fields : NFields) :
    specTransTaggedLeaves fields = specRelFields false 0 fields := by
  rw [specTransTaggedLeaves, spec_struct_lineage]
  simp

/-- Leaf inequality evaluated relative to an item. -/
def leafNeItem (a b : SnapItem) (p : List Nat) : Bool :=
  match getItemPath a p, getItemPath b p with
  | some (.leaf v), some (.leaf w) => !(v == w)
  | _, _ => false

theorem leafNe_cons (AS BS : SnapFields) (i : Nat) (p : List Nat)
    (a b : SnapItem) (ha : AS.get i = some a) (hb : BS.get i = some b) :
    leafNe AS BS (i :: p) = leafNeItem a b p := by
  simp [leafNe, getPath, leafNeItem, ha, hb]

theorem leafNeItem_node (ad bd : Nat) (afs bfs : SnapFields) (j : Nat)
    (q : List Nat) :
    leafNeItem (.node ad afs) (.node bd bfs) (j :: q) = leafNe afs bfs (j :: q) := by
  simp [leafNeItem, getItemPath, leafNe, getPath]

theorem specRelFields_mem_cons : ∀ (fs : NFields) (tagged : Bool) (i : Nat)
    (p : List Nat), p ∈ specRelFields tagged i fs → ∃ j q, p = j :: q := by
  intro fs
  match fs with
  | .nil => intro tagged i p h; exact absurd h (by simp [specRelFields])
  | .cons f tl =>
    intro tagged i p h
    rw [specRelFields] at h
    rcases List.mem_append.mp h with h1 | h2
    · obtain ⟨q, _, hq⟩ := List.mem_map.mp h1
      exact ⟨i, q, hq.symm⟩
    · exact specRelFields_mem_cons tl tagged (i + 1) p h2

mutual

theorem spec_any_eq_specFields : ∀ (fs : NFields) (tagged : Bool) (i : Nat)
    (AS BS : SnapFields), conformsFields fs (AS.drop i) = true →
    conformsFields fs (BS.drop i) = true →
    (specRelFields tagged i fs).any (leafNe AS BS) =
      specFields tagged fs (AS.drop i) (BS.drop i) := by
  intro fs tagged i AS BS hA hB
  match fs with
  | .nil =>
    cases hA2 : AS.drop i <;> cases hB2 : BS.drop i <;>
      simp [specRelFields, specFields]
  | .cons f tl =>
    cases hA2 : AS.drop i with
    | nil => rw [hA2] at hA; exact absurd hA (by simp [conformsFields])
    | cons a atl =>
      cases hB2 : BS.drop i with
      | nil => rw [hB2] at hB; exact absurd hB (by simp [conformsFields])
      | cons b btl =>
        rw [hA2] at hA
        rw [hB2] at hB
        rw [conformsFields, Bool.and_eq_true] at hA hB
        obtain ⟨hga, hda⟩ := drop_cons_get i AS a atl hA2
        obtain ⟨hgb, hdb⟩ := drop_cons_get i BS b btl hB2
        rw [specRelFields, List.any_append, List.any_map, specFields]
        have h1 : ((specRelItemPaths tagged f).any (leafNe AS BS ∘ fun p => i :: p)) =
            (specRelItemPaths tagged f).any (leafNeItem a b) := by
          refine any_congrOn ?_
          intro q _
          simp only [Function.comp]
          exact leafNe_cons AS BS i q a b hga hgb
        rw [h1, spec_any_eq_specItem f tagged a b hA.1 hB.1]
        have h2 := spec_any_eq_specFields tl tagged (i + 1) AS BS
          (by rw [hda]; exact hA.2) (by rw [hdb]; exact hB.2)
        rw [hda, hdb] at h2
        rw [h2]

theorem spec_any_eq_specItem : ∀ (f : NItem) (tagged : Bool) (a b : SnapItem),
    conformsItem f a = true → conformsItem f b = true →
    (specRelItemPaths tagged f).any (leafNeItem a b) = specItem tagged f a b := by
  intro f tagged a b hA hB
  match f with
  | .leaf r =>
    cases a with
    | node _ _ => exact absurd hA (by simp [conformsItem])
    | leaf v =>
      cases b with
      | node _ _ => exact absurd hB (by simp [conformsItem])
      | leaf w =>
        cases hr : (r || tagged) <;>
          simp [specRelItemPaths, specItem, leafNeItem, getItemPath, hr]
  | .node r ty cfs =>
    cases a with
    | leaf _ => exact absurd hA (by simp [conformsItem])
    | node ad afs =>
      cases b with
      | leaf _ => exact absurd hB (by simp [conformsItem])
      | node bd bfs =>
        rw [conformsItem] at hA hB
        rw [specRelItemPaths, specItem]
        have h1 : (specRelFields (tagged || r) 0 cfs).any
              (leafNeItem (.node ad afs) (.node bd bfs)) =
            (specRelFields (tagged || r) 0 cfs).any (leafNe afs bfs) := by
          refine any_congrOn ?_
          intro q hq
          obtain ⟨j, q2, hjq⟩ := specRelFields_mem_cons cfs (tagged || r) 0 q hq
          subst hjq
          exact leafNeItem_node ad bd afs bfs j q2
        rw [h1]
        have h2 := spec_any_eq_specFields cfs (tagged || r) 0 afs bfs
          (by rw [SnapFields.drop]; exact hA) (by rw [SnapFields.drop]; exact hB)
        simp only [SnapFields.drop] at h2
        exact h2

end

/-! ## Core equivalence of the two comparison semantics -/

mutual

theorem rrItem_implies_ne : ∀ (f : NItem) (a b : SnapItem),
    rrItem f a b = true → eqItem a b = false := by
  intro f a b h
  match f, a, b with
  | .leaf r, .leaf v, .leaf w =>
    rw [rrItem, Bool.and_eq_true] at h
    rw [eqItem]
    simpa using h.2
  | .node r ty cfs, .node ad afs, .node bd bfs =>
    rw [rrItem, Bool.or_eq_true] at h
    rw [eqItem]
    rcases h with h | h
    · rw [Bool.and_eq_true] at h
      simpa using h.2
    · exact rrFields_implies_ne cfs afs bfs h
  | .leaf _, .leaf _, .node _ _ => simp [rrItem] at h
  | .leaf _, .node _ _, _ => simp [rrItem] at h
  | .node _ _ _, .leaf _, _ => simp [rrItem] at h
  | .node _ _ _, .node _ _, .leaf _ => simp [rrItem] at h

theorem rrFields_implies_ne : ∀ (fs : NFields) (as bs : SnapFields),
    rrFields fs as bs = true → eqFields as bs = false := by
  intro fs as bs h
  match fs, as, bs with
  | .cons f tl, .cons a atl, .cons b btl =>
    rw [rrFields, Bool.or_eq_true] at h
    rw [eqFields]
    rcases h with h | h
    · simp [rrItem_implies_ne f a b h]
    · simp [rrFields_implies_ne tl atl btl h]
  | .nil, _, _ => simp [rrFields] at h
  | .cons _ _, .nil, _ => simp [rrFields] at h
  | .cons _ _, .cons _ _, .nil => simp [rrFields] at h

end

mutual

theorem specItem_true_eq_ne : ∀ (f : NItem) (a b : SnapItem),
    conformsItem f a = true → conformsItem f b = true →
    specItem true f a b = !(eqItem a b) := by
  intro f a b hA hB
  match f, a, b with
  | .leaf r, .leaf v, .leaf w => simp [specItem, eqItem]
  | .node r ty cfs, .node ad afs, .node bd bfs =>
    rw [conformsItem] at hA hB
    rw [specItem, eqItem]
    have : (true || r) = true := by simp
    rw [this]
    exact specFields_true_eq_ne cfs afs bfs hA hB
  | .leaf _, .leaf _, .node _ _ => exact absurd hB (by simp [conformsItem])
  | .leaf _, .node _ _, _ => exact absurd hA (by simp [conformsItem])
  | .node _ _ _, .leaf _, _ => exact absurd hA (by simp [conformsItem])
  | .node _ _ _, .node _ _, .leaf _ => exact absurd hB (by simp [conformsItem])

theorem specFields_true_eq_ne : ∀ (fs : NFields) (as bs : SnapFields),
    conformsFields fs as = true → conformsFields fs bs = true →
    specFields true fs as bs = !(eqFields as bs) := by
  intro fs as bs hA hB
  match fs, as, bs with
  | .nil, .nil, .nil => simp [specFields, eqFields]
  | .cons f tl, .cons a atl, .cons b btl =>
    rw [conformsFields, Bool.and_eq_true] at hA hB
    rw [specFields, eqFields,
      specItem_true_eq_ne f a b hA.1 hB.1,
      specFields_true_eq_ne tl atl btl hA.2 hB.2]
    simp [Bool.not_and]
  | .nil, .cons _ _, _ => exact absurd hA (by simp [conformsFields])
  | .nil, .nil, .cons _ _ => exact absurd hB (by simp [conformsFields])
  | .cons _ _, .nil, _ => exact absurd hA (by simp [conformsFields])
  | .cons _ _, .cons _ _, .nil => exact absurd hB (by simp [conformsFields])

end

mutual

theorem rrItem_eq_specItem : ∀ (f : NItem) (a b : SnapItem),
    conformsItem f a = true → conformsItem f b = true →
    rrItem f a b = specItem false f a b := by
  intro f a b hA hB
  match f, a, b with
  | .leaf r, .leaf v, .leaf w => simp [rrItem, specItem]
  | .node r ty cfs, .node ad afs, .node bd bfs =>
    rw [conformsItem] at hA hB
    rw [rrItem, specItem]
    have hfr : (false || r) = r := by simp
    rw [hfr]
    cases r with
    | false =>
      simp only [Bool.false_and, Bool.false_or]
      exact rrFields_eq_specFields cfs afs bfs hA hB
    | true =>
      simp only [Bool.true_and]
      rw [specFields_true_eq_ne cfs afs bfs hA hB]
      cases hrr : rrFields cfs afs bfs with
      | false => simp
      | true => simp [rrFields_implies_ne cfs afs bfs hrr]
  | .leaf _, .leaf _, .node _ _ => exact absurd hB (by simp [conformsItem])
  | .leaf _, .node _ _, _ => exact absurd hA (by simp [conformsItem])
  | .node _ _ _, .leaf _, _ => exact absurd hA (by simp [conformsItem])
  | .node _ _ _, .node _ _, .leaf _ => exact absurd hB (by simp [conformsItem])

theorem rrFields_eq_specFields : ∀ (fs : NFields) (as bs : SnapFields),
    conformsFields fs as = true → conformsFields fs bs = true →
    rrFields fs as bs = specFields false fs as bs := by
  intro fs as bs hA hB
  match fs, as, bs with
  | .nil, .nil, .nil => simp [rrFields, specFields]
  | .cons f tl, .cons a atl, .cons b btl =>
    rw [conformsFields, Bool.and_eq_true] at hA hB
    rw [rrFields, specFields,
      rrItem_eq_specItem f a b hA.1 hB.1,
      rrFields_eq_specFields tl atl btl hA.2 hB.2]
  | .nil, .cons _ _, _ => exact absurd hA (by simp [conformsFields])
  | .nil, .nil, .cons _ _ => exact absurd hB (by simp [conformsFields])
  | .cons _ _, .nil, _ => exact absurd hA (by simp [conformsFields])
  | .cons _ _, .cons _ _, .nil => exact absurd hB (by simp [conformsFields])

end

/-- General comparison-semantics lemma: for every tag-marked schema and every
pair of conforming Snapshot values, the generated `restart_required(s1, s2)`
returns `true` iff at least one transitively tagged leaf field (a field
whose restart flag is set, or any field below a flagged nested field)
differs between `s1` and `s2`. -/
theorem restart_required_iff_transTagged (fields : NFields) (s1 s2 : SnapFields)
    (h1 : conformsFields fields s1 = true)
    (h2 : conformsFields fields s2 = true) :
    restart_required fields s1 s2 = true ↔
      ∃ p ∈ specTransTaggedLeaves fields, leafNe s1 s2 p = true := by
  have e1 : restart_required fields s1 s2 = rrFields fields s1 s2 := by
    rw [restart_required, build_restart_comparison_eq_rel]
    have := collect_any_eq_rrFields fields 0 s1 s2
      (by rw [SnapFields.drop]; exact h1) (by rw [SnapFields.drop]; exact h2)
    simpa only [SnapFields.drop] using this
  have e2 : (specTransTaggedLeaves fields).any (leafNe s1 s2) =
      specFields false fields s1 s2 := by
    rw [specTransTaggedLeaves_eq_rel]
    have := spec_any_eq_specFields fields false 0 s1 s2
      (by rw [SnapFields.drop]; exact h1) (by rw [SnapFields.drop]; exact h2)
    simpa only [SnapFields.drop] using this
  rw [e1, rrFields_eq_specFields fields s1 s2 h1 h2, ← e2]
  exact List.any_eq_true

/-! ## C1: which written annotation the comparison builder recognizes

`build_restart_comparison_for_field` collects a field iff
`field.attrs.iter().any(|attr| attr.path().is_ident("restart"))` — i.e. iff
some attribute's *path* is the bare identifier `restart`, as written
`#[restart]` (the form the repository's own config tests use).  An attribute
written `#[conspiracy(restart)]` has path `conspiracy` (the `restart` sits
in its argument tokens, not in its path), so the config comparison builder
does not collect it; only the feature macro recognizes that form, via
`extract_conspiracy_attributes`.  An attribute is modelled by its path
identifier, and a declaration with written attributes lowers to the
tag-marked schema by evaluating the builder's attribute test. -/

/-- The attribute test of `build_restart_comparison_for_field`:
`attr.path().is_ident("restart")` over the field's attribute list. -/
def has_restart_attr (attrs : List String) : Bool :=
  attrs.any (fun a => a == "restart")

mutual

inductive ANItem : Type where
  | leaf (attrs : List String)
  | node (attrs : List String) (ty : String) (fields : ANFields)
deriving DecidableEq

inductive ANFields : Type where
  | nil
  | cons (hd : ANItem) (tl : ANFields)
deriving DecidableEq

end

mutual

def lowerItem : ANItem → NItem
  | .leaf attrs => .leaf (has_restart_attr attrs)
  | .node attrs ty fields => .node (has_restart_attr attrs) ty (lowerFields fields)

def lowerFields : ANFields → NFields
  | .nil => .nil
  | .cons f fs => .cons (lowerItem f) (lowerFields fs)

end

/-- The claim's example schema with the tag written as the claim writes it:
`{foo: u32, bar: { #[conspiracy(restart)] foo: u32 }}` — the attribute's
path identifier is `conspiracy`. -/
def exC1ConspiracySyntax : ANFields :=
  .cons (.leaf [])
    (.cons (.node [] "ExBar" (.cons (.leaf ["conspiracy"]) .nil)) .nil)

/-- The same example schema with the tag written `#[restart]` —
the attribute's path identifier is `restart`. -/
def exC1RestartSyntax : ANFields :=
  .cons (.leaf [])
    (.cons (.node [] "ExBar" (.cons (.leaf ["restart"]) .nil)) .nil)

/-- Baseline value for the example schema. -/
def exBase : SnapFields :=
  .cons (.leaf 0) (.cons (.node 7 (.cons (.leaf 0) .nil)) .nil)

/-- Value differing from `exBase` only in the nested leaf `bar.foo`. -/
def exBarFooChanged : SnapFields :=
  .cons (.leaf 0) (.cons (.node 8 (.cons (.leaf 1) .nil)) .nil)

/-- Value differing from `exBase` only in the top-level leaf `foo`. -/
def exTopFooChanged : SnapFields :=
  .cons (.leaf 1) (.cons (.node 7 (.cons (.leaf 0) .nil)) .nil)

/-- Claim C1 counterexample: in the claim's example schema with the tag
written `#[conspiracy(restart)]` on `bar.foo`, the comparison builder
collects nothing, so `restart_required` returns `false` although the field
the claim deems tagged (path `bar.foo`, i.e. `[1, 0]`) differs — the claim,
which asserts `true` here, fails as stated. -/
theorem claim_C1_counterexample :
    leafNe exBase exBarFooChanged [1, 0] = true ∧
    build_restart_comparison (lowerFields exC1ConspiracySyntax) = [] ∧
    restart_required (lowerFields exC1ConspiracySyntax) exBase
      exBarFooChanged = false := by
  refine ⟨by decide, by decide, by decide⟩

/-- Claim C1 (amended): the triggers-restart annotation on a config field is
written `#[restart]` (the comparison builder matches
`attr.path().is_ident("restart")`; `#[conspiracy(restart)]` is not collected
here).  With that syntax, for every configuration schema and every pair of
conforming Snapshot values, the generated `restart_required(s1, s2)` returns
`true` iff at least one field transitively tagged `#[restart]` (tagged
itself, or below a tagged nested field) differs between `s1` and `s2`; it
returns `false` when no field in the subtree is tagged or only untagged
fields differ.  For the example schema
`{foo: u32, bar: { #[restart] foo: u32 }}`, changing only top-level `foo`
yields `false` and changing `bar.foo` yields `true` (witness). -/
theorem claim_C1_restart_attr_iff (fields : ANFields) (s1 s2 : SnapFields)
    (h1 : conformsFields (lowerFields fields) s1 = true)
    (h2 : conformsFields (lowerFields fields) s2 = true) :
    restart_required (lowerFields fields) s1 s2 = true ↔
      ∃ p ∈ specTransTaggedLeaves (lowerFields fields),
        leafNe s1 s2 p = true :=
  restart_required_iff_transTagged (lowerFields fields) s1 s2 h1 h2

theorem claim_C1_restart_attr_witness :
    (restart_required (lowerFields exC1RestartSyntax) exBase
        exBarFooChanged = true ↔
      ∃ p ∈ specTransTaggedLeaves (lowerFields exC1RestartSyntax),
        leafNe exBase exBarFooChanged p = true) ∧
    restart_required (lowerFields exC1RestartSyntax) exBase
      exBarFooChanged = true ∧
    restart_required (lowerFields exC1RestartSyntax) exBase
      exTopFooChanged = false :=
  ⟨claim_C1_restart_attr_iff exC1RestartSyntax exBase exBarFooChanged
      (by decide) (by decide),
    by decide, by decide⟩

/-! ## C9: node-level restart tag versus tagging every direct field -/

/-- Append two schema field lists. -/
def NFields.append : NFields → NFields → NFields
  | .nil, ys => ys
  | .cons f fs, ys => .cons f (NFields.append fs ys)

/-- Put the restart tag on one field. -/
def setTag : NItem → NItem
  | .leaf _ => .leaf true
  | .node _ ty cfs => .node true ty cfs

/-- Tag every direct field of a node individually. -/
def tagAllDirect : NFields → NFields
  | .nil => .nil
  | .cons f fs => .cons (setTag f) (tagAllDirect fs)

theorem conformsItem_setTag (f : NItem) (x : SnapItem) :
    conformsItem (setTag f) x = conformsItem f x := by
  match f, x with
  | .leaf _, .leaf _ => rfl
  | .leaf _, .node _ _ => rfl
  | .node _ _ _, .leaf _ => rfl
  | .node _ ty cfs, .node _ _ => rfl

theorem conformsFields_tagAllDirect : ∀ (fs : NFields) (x : SnapFields),
    conformsFields (tagAllDirect fs) x = conformsFields fs x := by
  intro fs x
  match fs, x with
  | .nil, _ => cases x <;> rfl
  | .cons f tl, .nil => rfl
  | .cons f tl, .cons a atl =>
    rw [tagAllDirect, conformsFields, conformsFields,
      conformsItem_setTag, conformsFields_tagAllDirect tl atl]

theorem rrItem_setTag (f : NItem) (a b : SnapItem)
    (hA : conformsItem f a = true) (hB : conformsItem f b = true) :
    rrItem (setTag f) a b = (!(eqItem a b) || rrItem f a b) := by
  match f, a, b with
  | .leaf r, .leaf v, .leaf w =>
    rw [setTag]
    cases r <;> simp [rrItem, eqItem]
  | .node r ty cfs, .node ad afs, .node bd bfs =>
    rw [setTag, rrItem, rrItem]
    simp only [eqItem]
    cases hq : eqFields afs bfs <;> cases r <;> simp [hq]
  | .leaf _, .leaf _, .node _ _ => exact absurd hB (by simp [conformsItem])
  | .leaf _, .node _ _, _ => exact absurd hA (by simp [conformsItem])
  | .node _ _ _, .leaf _, _ => exact absurd hA (by simp [conformsItem])
  | .node _ _ _, .node _ _, .leaf _ => exact absurd hB (by simp [conformsItem])

theorem rrFields_tagAllDirect : ∀ (fs : NFields) (as bs : SnapFields),
    conformsFields fs as = true → conformsFields fs bs = true →
    rrFields (tagAllDirect fs) as bs = (!(eqFields as bs) || rrFields fs as bs) := by
  intro fs as bs hA hB
  match fs, as, bs with
  | .nil, .nil, .nil => simp [tagAllDirect, rrFields, eqFields]
  | .cons f tl, .cons a atl, .cons b btl =>
    rw [conformsFields, Bool.and_eq_true] at hA hB
    rw [tagAllDirect, rrFields, rrFields, eqFields,
      rrItem_setTag f a b hA.1 hB.1,
      rrFields_tagAllDirect tl atl btl hA.2 hB.2]
    cases eqItem a b <;> cases eqFields atl btl <;> simp
  | .nil, .cons _ _, _ => exact absurd hA (by simp [conformsFields])
  | .nil, .nil, .cons _ _ => exact absurd hB (by simp [conformsFields])
  | .cons _ _, .nil, _ => exact absurd hA (by simp [conformsFields])
  | .cons _ _, .cons _ _, .nil => exact absurd hB (by simp [conformsFields])

/-- The restart comparison for a node-level tag equals the one for tagging
every direct field, at the item holding the nested node. -/
theorem rrItem_nodeTag_eq_tagAll (ty : String) (cfs : NFields)
    (a b : SnapItem) (hA : conformsItem (.node true ty cfs) a = true)
    (hB : conformsItem (.node true ty cfs) b = true) :
    rrItem (.node true ty cfs) a b =
      rrItem (.node false ty (tagAllDirect cfs)) a b := by
  match a, b with
  | .node ad afs, .node bd bfs =>
    rw [conformsItem] at hA hB
    rw [rrItem, rrItem]
    rw [rrFields_tagAllDirect cfs afs bfs hA hB]
    simp
  | .leaf _, _ => exact absurd hA (by simp [conformsItem])
  | .node _ _, .leaf _ => exact absurd hB (by simp [conformsItem])

theorem conformsFields_congr_mid : ∀ (pre : NFields) (f g : NItem)
    (post : NFields) (x : SnapFields),
    (∀ y, conformsItem f y = conformsItem g y) →
    conformsFields (NFields.append pre (.cons f post)) x =
      conformsFields (NFields.append pre (.cons g post)) x := by
  intro pre f g post x hfg
  match pre, x with
  | .nil, .nil => rfl
  | .nil, .cons a atl =>
    rw [NFields.append, NFields.append, conformsFields, conformsFields, hfg a]
  | .cons p ptl, .nil => rfl
  | .cons p ptl, .cons a atl =>
    rw [NFields.append, NFields.append, conformsFields, conformsFields,
      conformsFields_congr_mid ptl f g post atl hfg]

theorem rrFields_congr_mid : ∀ (pre : NFields) (f g : NItem) (post : NFields)
    (s1 s2 : SnapFields),
    conformsFields (NFields.append pre (.cons f post)) s1 = true →
    conformsFields (NFields.append pre (.cons f post)) s2 = true →
    (∀ a b, conformsItem f a = true → conformsItem f b = true →
      rrItem f a b = rrItem g a b) →
    rrFields (NFields.append pre (.cons f post)) s1 s2 =
      rrFields (NFields.append pre (.cons g post)) s1 s2 := by
  intro pre f g post s1 s2 h1 h2 hfg
  match pre, s1, s2 with
  | .nil, .cons a atl, .cons b btl =>
    rw [NFields.append] at h1 h2 ⊢
    rw [conformsFields, Bool.and_eq_true] at h1 h2
    rw [NFields.append, rrFields, rrFields, hfg a b h1.1 h2.1]
  | .cons p ptl, .cons a atl, .cons b btl =>
    rw [NFields.append] at h1 h2 ⊢
    rw [conformsFields, Bool.and_eq_true] at h1 h2
    rw [NFields.append, rrFields, rrFields,
      rrFields_congr_mid ptl f g post atl btl h1.2 h2.2 hfg]
  | .nil, .nil, _ =>
    rw [NFields.append] at h1
    exact absurd h1 (by simp [conformsFields])
  | .nil, .cons _ _, .nil =>
    rw [NFields.append] at h2
    exact absurd h2 (by simp [conformsFields])
  | .cons _ _, .nil, _ =>
    rw [NFields.append] at h1
    exact absurd h1 (by simp [conformsFields])
  | .cons _ _, .cons _ _, .nil =>
    rw [NFields.append] at h2
    exact absurd h2 (by simp [conformsFields])

/-- Conversion of the generated comparison to its recursive form. -/
theorem restart_required_eq_rrFields (fields : NFields) (s1 s2 : SnapFields)
    (h1 : conformsFields fields s1 = true)
    (h2 : conformsFields fields s2 = true) :
    restart_required fields s1 s2 = rrFields fields s1 s2 := by
  rw [restart_required, build_restart_comparison_eq_rel]
  have := collect_any_eq_rrFields fields 0 s1 s2
    (by rw [SnapFields.drop]; exact h1) (by rw [SnapFields.drop]; exact h2)
  simpa only [SnapFields.drop] using this

/-- Claim C9: a node-level restart tag (the restart attribute on a field
holding a nested schema) yields a `restart_required` equivalent to tagging
every direct field of that node individually: the two generated comparisons
agree on all conforming Snapshot pairs. -/
theorem claim_C9_node_tag_equivalence (pre post : NFields) (ty : String)
    (cfs : NFields) (s1 s2 : SnapFields)
    (h1 : conformsFields (NFields.append pre (.cons (.node true ty cfs) post)) s1 = true)
    (h2 : conformsFields (NFields.append pre (.cons (.node true ty cfs) post)) s2 = true) :
    restart_required (NFields.append pre (.cons (.node true ty cfs) post)) s1 s2 =
      restart_required (NFields.append pre
        (.cons (.node false ty (tagAllDirect cfs)) post)) s1 s2 := by
  have hmid : ∀ y, conformsItem (.node false ty (tagAllDirect cfs)) y =
      conformsItem (.node true ty cfs) y := by
    intro y
    cases y with
    | leaf _ => rfl
    | node _ yfs =>
      rw [conformsItem, conformsItem, conformsFields_tagAllDirect]
  have hconf : ∀ x, conformsFields (NFields.append pre
      (.cons (.node false ty (tagAllDirect cfs)) post)) x =
      conformsFields (NFields.append pre (.cons (.node true ty cfs) post)) x :=
    fun x => conformsFields_congr_mid pre _ _ post x hmid
  rw [restart_required_eq_rrFields _ s1 s2 h1 h2,
    restart_required_eq_rrFields _ s1 s2 (by rw [hconf]; exact h1)
      (by rw [hconf]; exact h2)]
  exact rrFields_congr_mid pre (.node true ty cfs)
    (.node false ty (tagAllDirect cfs)) post s1 s2 h1 h2
    (fun a b ha hb => rrItem_nodeTag_eq_tagAll ty cfs a b ha hb)

theorem claim_C9_witness :
    restart_required (NFields.append (.cons (.leaf false) .nil)
        (.cons (.node true "ExMid" (.cons (.leaf false) .nil)) .nil))
      (.cons (.leaf 0) (.cons (.node 1 (.cons (.leaf 5) .nil)) .nil))
      (.cons (.leaf 0) (.cons (.node 2 (.cons (.leaf 6) .nil)) .nil)) =
    restart_required (NFields.append (.cons (.leaf false) .nil)
        (.cons (.node false "ExMid" (tagAllDirect (.cons (.leaf false) .nil))) .nil))
      (.cons (.leaf 0) (.cons (.node 1 (.cons (.leaf 5) .nil)) .nil))
      (.cons (.leaf 0) (.cons (.node 2 (.cons (.leaf 6) .nil)) .nil)) :=
  claim_C9_node_tag_equivalence (.cons (.leaf false) .nil) .nil "ExMid"
    (.cons (.leaf false) .nil)
    (.cons (.leaf 0) (.cons (.node 1 (.cons (.leaf 5) .nil)) .nil))
    (.cons (.leaf 0) (.cons (.node 2 (.cons (.leaf 6) .nil)) .nil))
    (by decide) (by decide)

/-! ## C4: generated `AsField` projections

`generate_config_structs` keeps a lineage of (field ident, containing struct
type) pairs; at every nested struct it calls `impl_as_field_for_lineage`,
which emits one `impl AsField<Child> for Root` per lineage suffix
(`for i in (0..lineage.len()).rev()`), where `impl_as_field` takes the
suffix's first entry's type as the impl target and the suffix's idents as the
access path of the generated body `self.#fields.clone()`.  An impl is
modelled as `(root type, child type, access path)`. -/

def impl_as_field : List (Nat × String) → String → List (String × String × List Nat)
  | [], _ => []
  | (i, rootTy) :: tl, childTy => [(rootTy, childTy, i :: tl.map Prod.fst)]

def impl_as_field_for_lineage (lineage : List (Nat × String)) (childTy : String) :
    List (String × String × List Nat) :=
  (((List.range lineage.length).reverse).map
    (fun i => impl_as_field (lineage.drop i) childTy)).flatten

mutual

def generate_config_structs_impls (lineage : List (Nat × String))
    (curTy : String) (idx : Nat) : NFields → List (String × String × List Nat)
  | .nil => []
  | .cons f fs =>
    gen_item_impls lineage curTy idx f ++
      generate_config_structs_impls lineage curTy (idx + 1) fs

def gen_item_impls (lineage : List (Nat × String)) (curTy : String) (idx : Nat) :
    NItem → List (String × String × List Nat)
  | .leaf _ => []
  | .node _ cty cfs =>
    impl_as_field_for_lineage (lineage ++ [(idx, curTy)]) cty ++
      generate_config_structs_impls (lineage ++ [(idx, curTy)]) cty 0 cfs

end

/-- All `AsField` impls generated by `config_struct!` for a declaration. -/
def config_struct_impls (rootTy : String) (fields : NFields) :
    List (String × String × List Nat) :=
  generate_config_structs_impls [] rootTy 0 fields

/-! Specification view: the declared ancestor/descendant pairs. -/

mutual

def descPathsFields (i : Nat) : NFields → List (String × List Nat)
  | .nil => []
  | .cons f fs => descPathsItem i f ++ descPathsFields (i + 1) fs

def descPathsItem (i : Nat) : NItem → List (String × List Nat)
  | .leaf _ => []
  | .node _ cty cfs =>
    (cty, [i]) :: (descPathsFields 0 cfs).map (fun tp => (tp.1, i :: tp.2))

end

mutual

def allNodesFields : NFields → List (String × NFields)
  | .nil => []
  | .cons f fs => allNodesItem f ++ allNodesFields fs

def allNodesItem : NItem → List (String × NFields)
  | .leaf _ => []
  | .node _ cty cfs => (cty, cfs) :: allNodesFields cfs

end

/-- Every node of the schema (the root together with all nested nodes). -/
def allNodes (rootTy : String) (fields : NFields) : List (String × NFields) :=
  (rootTy, fields) :: allNodesFields fields

/-- Evaluation of the generated projection body `self.#fields.clone()` on a
value, which is also the manual walk of the declared field path: descend
through the nested fields and return the final `Arc` (address and pointee);
`Arc::clone` preserves the address. -/
def walkShare : SnapFields → List Nat → Option (Nat × SnapFields)
  | _, [] => none
  | a, i :: p =>
    match a.get i with
    | some (SnapItem.node ad fs) =>
      if p.isEmpty then some (ad, fs) else walkShare fs p
    | _ => none

/-! The shared pointers physically present inside a value. -/

mutual

def boxesItem : SnapItem → List (Nat × SnapFields)
  | .leaf _ => []
  | .node ad fs => (ad, fs) :: boxesFields fs

def boxesFields : SnapFields → List (Nat × SnapFields)
  | .nil => []
  | .cons f fs => boxesItem f ++ boxesFields fs

end

theorem impl_as_field_mem_for_lineage (L relLin : List (Nat × String))
    (c : String) (hne : relLin ≠ []) (x : String × String × List Nat)
    (hx : x ∈ impl_as_field relLin c) :
    x ∈ impl_as_field_for_lineage (L ++ relLin) c := by
  rw [impl_as_field_for_lineage]
  rw [List.mem_flatten]
  refine ⟨impl_as_field ((L ++ relLin).drop L.length) c, ?_, ?_⟩
  · refine List.mem_map.mpr ⟨L.length, ?_, rfl⟩
    rw [List.mem_reverse, List.mem_range, List.length_append]
    have : 0 < relLin.length := List.length_pos.mpr hne
    omega
  · rw [List.drop_left]
    exact hx

mutual

theorem gen_covers_fields : ∀ (fields : NFields) (idx : Nat) (curTy t : String)
    (q : List Nat), (t, q) ∈ descPathsFields idx fields →
    ∃ relLin : List (Nat × String), relLin.map Prod.fst = q ∧
      (∃ j tl0, relLin = (j, curTy) :: tl0) ∧
      ∀ L : List (Nat × String), ∀ x, x ∈ impl_as_field_for_lineage (L ++ relLin) t →
        x ∈ generate_config_structs_impls L curTy idx fields := by
  intro fields idx curTy t q hq
  match fields with
  | .nil => exact absurd hq (by simp [descPathsFields])
  | .cons f tl =>
    rw [descPathsFields] at hq
    rcases List.mem_append.mp hq with h1 | h2
    · obtain ⟨relLin, hmap, hhd, hsub⟩ := gen_covers_item f idx curTy t q h1
      refine ⟨relLin, hmap, hhd, ?_⟩
      intro L x hx
      rw [generate_config_structs_impls]
      exact List.mem_append.mpr (Or.inl (hsub L x hx))
    · obtain ⟨relLin, hmap, hhd, hsub⟩ :=
        gen_covers_fields tl (idx + 1) curTy t q h2
      refine ⟨relLin, hmap, hhd, ?_⟩
      intro L x hx
      rw [generate_config_structs_impls]
      exact List.mem_append.mpr (Or.inr (hsub L x hx))

theorem gen_covers_item : ∀ (f : NItem) (idx : Nat) (curTy t : String)
    (q : List Nat), (t, q) ∈ descPathsItem idx f →
    ∃ relLin : List (Nat × String), relLin.map Prod.fst = q ∧
      (∃ j tl0, relLin = (j, curTy) :: tl0) ∧
      ∀ L : List (Nat × String), ∀ x, x ∈ impl_as_field_for_lineage (L ++ relLin) t →
        x ∈ gen_item_impls L curTy idx f := by
  intro f idx curTy t q hq
  match f with
  | .leaf _ => exact absurd hq (by simp [descPathsItem])
  | .node r cty cfs =>
    rw [descPathsItem] at hq
    rcases List.mem_cons.mp hq with h1 | h2
    · rw [Prod.mk.injEq] at h1
      obtain ⟨ht, hq1⟩ := h1
      subst ht
      subst hq1
      refine ⟨[(idx, curTy)], by simp, ⟨idx, [], rfl⟩, ?_⟩
      intro L x hx
      rw [gen_item_impls]
      exact List.mem_append.mpr (Or.inl hx)
    · obtain ⟨⟨t2, q2⟩, hmem, heq⟩ := List.mem_map.mp h2
      rw [Prod.mk.injEq] at heq
      obtain ⟨ht, hq2⟩ := heq
      subst ht
      subst hq2
      obtain ⟨relLin2, hmap2, hhd2, hsub2⟩ :=
        gen_covers_fields cfs 0 cty t2 q2 hmem
      refine ⟨(idx, curTy) :: relLin2, by simp [hmap2], ⟨idx, relLin2, rfl⟩, ?_⟩
      intro L x hx
      rw [gen_item_impls]
      refine List.mem_append.mpr (Or.inr ?_)
      have hassoc : L ++ (idx, curTy) :: relLin2 = (L ++ [(idx, curTy)]) ++ relLin2 := by
        simp
      rw [hassoc] at hx
      exact hsub2 (L ++ [(idx, curTy)]) x hx

end

theorem allNodesFields_gen_sub : ∀ (fields : NFields) (nty : String)
    (nfs : NFields), (nty, nfs) ∈ allNodesFields fields →
    ∀ (L : List (Nat × String)) (curTy : String) (idx : Nat),
    ∃ L2, ∀ x, x ∈ generate_config_structs_impls L2 nty 0 nfs →
      x ∈ generate_config_structs_impls L curTy idx fields := by
  intro fields nty nfs hmem L curTy idx
  match fields with
  | .nil => exact absurd hmem (by simp [allNodesFields])
  | .cons f tl =>
    rw [allNodesFields] at hmem
    rcases List.mem_append.mp hmem with h1 | h2
    · match f, h1 with
      | .node r cty cfs, h1 =>
        rw [allNodesItem] at h1
        rcases List.mem_cons.mp h1 with h3 | h4
        · obtain ⟨hty, hfs⟩ : nty = cty ∧ nfs = cfs := by
            refine ⟨congrArg Prod.fst h3, congrArg Prod.snd h3⟩
          subst hty
          subst hfs
          refine ⟨L ++ [(idx, curTy)], ?_⟩
          intro x hx
          rw [generate_config_structs_impls, gen_item_impls]
          exact List.mem_append.mpr (Or.inl (List.mem_append.mpr (Or.inr hx)))
        · obtain ⟨L2, hL2⟩ := allNodesFields_gen_sub cfs nty nfs h4
            (L ++ [(idx, curTy)]) cty 0
          refine ⟨L2, ?_⟩
          intro x hx
          rw [generate_config_structs_impls, gen_item_impls]
          exact List.mem_append.mpr (Or.inl (List.mem_append.mpr (Or.inr (hL2 x hx))))
    · obtain ⟨L2, hL2⟩ := allNodesFields_gen_sub tl nty nfs h2 L curTy (idx + 1)
      refine ⟨L2, ?_⟩
      intro x hx
      rw [generate_config_structs_impls]
      exact List.mem_append.mpr (Or.inr (hL2 x hx))

theorem descPaths_ne_nil : ∀ (fields : NFields) (i : Nat) (t : String)
    (q : List Nat), (t, q) ∈ descPathsFields i fields → ∃ j q2, q = j :: q2 := by
  intro fields i t q hq
  match fields with
  | .nil => exact absurd hq (by simp [descPathsFields])
  | .cons f tl =>
    rw [descPathsFields] at hq
    rcases List.mem_append.mp hq with h1 | h2
    · match f, h1 with
      | .node r cty cfs, h1 =>
        rw [descPathsItem] at h1
        rcases List.mem_cons.mp h1 with h3 | h4
        · rw [Prod.mk.injEq] at h3
          exact ⟨i, [], h3.2⟩
        · obtain ⟨tp, _, heq⟩ := List.mem_map.mp h4
          rw [Prod.mk.injEq] at heq
          exact ⟨i, tp.2, heq.2.symm⟩
    · exact descPaths_ne_nil tl (i + 1) t q h2

theorem boxes_get_sub : ∀ (AS : SnapFields) (i : Nat) (it : SnapItem),
    AS.get i = some it → ∀ bx ∈ boxesItem it, bx ∈ boxesFields AS := by
  intro AS i it hget bx hbx
  match AS, i, hget with
  | .cons f fs, 0, hget =>
    rw [SnapFields.get] at hget
    cases hget
    rw [boxesFields]
    exact List.mem_append.mpr (Or.inl hbx)
  | .cons f fs, n + 1, hget =>
    rw [SnapFields.get] at hget
    rw [boxesFields]
    exact List.mem_append.mpr (Or.inr (boxes_get_sub fs n it hget bx hbx))

theorem walkShare_desc : ∀ (fields : NFields) (idx : Nat) (t : String)
    (p : List Nat) (AS : SnapFields), (t, p) ∈ descPathsFields idx fields →
    conformsFields fields (AS.drop idx) = true →
    ∃ bx, walkShare AS p = some bx ∧ bx ∈ boxesFields AS := by
  intro fields idx t p AS hp hA
  match fields with
  | .nil => exact absurd hp (by simp [descPathsFields])
  | .cons f tl =>
    cases hA2 : AS.drop idx with
    | nil => rw [hA2] at hA; exact absurd hA (by simp [conformsFields])
    | cons a atl =>
      rw [hA2] at hA
      rw [conformsFields, Bool.and_eq_true] at hA
      obtain ⟨hga, hda⟩ := drop_cons_get idx AS a atl hA2
      rw [descPathsFields] at hp
      rcases List.mem_append.mp hp with h1 | h2
      · match f, hA.1, h1 with
        | .node r cty cfs, hconf, h1 =>
          match a, hconf with
          | .node ad afs, hconf =>
            rw [conformsItem] at hconf
            rw [descPathsItem] at h1
            rcases List.mem_cons.mp h1 with h3 | h4
            · rw [Prod.mk.injEq] at h3
              obtain ⟨-, hpp⟩ := h3
              subst hpp
              refine ⟨(ad, afs), ?_, ?_⟩
              · rw [walkShare, hga]
                simp
              · exact boxes_get_sub AS idx _ hga (ad, afs)
                  (by rw [boxesItem]; exact List.mem_cons_self _ _)
            · obtain ⟨⟨t2, q2⟩, hmem, heq⟩ := List.mem_map.mp h4
              rw [Prod.mk.injEq] at heq
              obtain ⟨-, hpp⟩ := heq
              rw [← hpp]
              obtain ⟨j, q3, hq23⟩ := descPaths_ne_nil cfs 0 t2 q2 hmem
              obtain ⟨bx, hbx1, hbx2⟩ := walkShare_desc cfs 0 t2 q2 afs hmem
                (by rw [SnapFields.drop]; exact hconf)
              refine ⟨bx, ?_, ?_⟩
              · rw [walkShare, hga]
                rw [hq23]
                simp only [List.isEmpty_cons, if_false]
                rw [← hq23]
                exact hbx1
              · exact boxes_get_sub AS idx _ hga bx
                  (by rw [boxesItem]; exact List.mem_cons_of_mem _ hbx2)
      · exact walkShare_desc tl (idx + 1) t p AS h2 (by rw [hda]; exact hA.2)

/-- Claim C4: for every ancestor node `A` and descendant node `B` connected
by a declared field path at any depth, `config_struct!` generates the
projection impl `AsField<B> for A` whose body walks exactly the declared
path; evaluating it on any conforming instance `a` of `A` succeeds and
returns an `Arc` that is one of the shared pointers already stored inside
`a` (the same pointer the manual walk of the declared path reads); no copy
of the descendant data is made.  `walkShare` is simultaneously the generated
body (`self.path.clone()`, with `clone` preserving the address) and the
manual walk, so the two pointers are identical by construction. -/
theorem claim_C4_share_projections (rootTy : String) (fields : NFields)
    (aty : String) (afs : NFields) (dty : String) (p : List Nat)
    (hn : (aty, afs) ∈ allNodes rootTy fields)
    (hd : (dty, p) ∈ descPathsFields 0 afs) :
    (aty, dty, p) ∈ config_struct_impls rootTy fields ∧
      ∀ a : SnapFields, conformsFields afs a = true →
        ∃ bx, walkShare a p = some bx ∧ bx ∈ boxesFields a := by
  constructor
  · obtain ⟨relLin, hmap, ⟨j, tl0, hhd⟩, hsub⟩ :=
      gen_covers_fields afs 0 aty dty p hd
    have hne : relLin ≠ [] := by rw [hhd]; simp
    have hximpl : (aty, dty, p) ∈ impl_as_field relLin dty := by
      rw [hhd, impl_as_field]
      have : j :: tl0.map Prod.fst = p := by
        rw [← hmap, hhd]
        simp
      rw [this]
      exact List.mem_singleton.mpr rfl
    rcases List.mem_cons.mp hn with h1 | h2
    · rw [Prod.mk.injEq] at h1
      obtain ⟨hty, hfs⟩ := h1
      subst hty
      subst hfs
      rw [config_struct_impls]
      refine hsub [] _ ?_
      have := impl_as_field_mem_for_lineage [] relLin dty hne _ hximpl
      simpa using this
    · obtain ⟨L2, hL2⟩ := allNodesFields_gen_sub fields aty afs h2 [] rootTy 0
      rw [config_struct_impls]
      refine hL2 _ (hsub L2 _ ?_)
      exact impl_as_field_mem_for_lineage L2 relLin dty hne _ hximpl
  · intro a hconf
    exact walkShare_desc afs 0 dty p a hd (by rw [SnapFields.drop]; exact hconf)

/-- Example schema for the projection claim:
`ExRoot { b: ExB { c: ExC { leaf } } }`. -/
def exC4fields : NFields :=
  .cons (.node false "ExB" (.cons (.node false "ExC" (.cons (.leaf false) .nil)) .nil)) .nil

/-- A conforming instance of the example schema. -/
def exC4val : SnapFields :=
  .cons (.node 5 (.cons (.node 9 (.cons (.leaf 3) .nil)) .nil)) .nil

theorem claim_C4_witness :
    ("ExRoot", "ExC", [0, 0]) ∈ config_struct_impls "ExRoot" exC4fields ∧
      ∃ bx, walkShare exC4val [0, 0] = some bx ∧ bx ∈ boxesFields exC4val := by
  have h := claim_C4_share_projections "ExRoot" exC4fields "ExRoot" exC4fields
    "ExC" [0, 0] (by decide) (by decide)
  exact ⟨h.1, h.2 exC4val (by decide)⟩

/-! ## C8: behaviour of `config_struct!` on duplicate node type identifiers

`config_struct` (conspiracy_macros/src/config.rs, `pub(super) fn
config_struct`) parses the input and immediately emits
`generate_compact_struct` followed by `generate_config_structs`; it contains
no validation of type-identifier uniqueness (nor any other semantic check) —
the only failure path is the grammar parse.  The emission of struct
definitions is modelled by the list of emitted type names: both generators
emit the nested children's definitions first and then the node's own
definition. -/

def compact_ty_name (ty : String) : String := "Compact" ++ ty

mutual

def compact_tys_fields : NFields → List String
  | .nil => []
  | .cons f fs => compact_tys_item f ++ compact_tys_fields fs

def compact_tys_item : NItem → List String
  | .leaf _ => []
  | .node _ cty cfs => compact_tys_fields cfs ++ [compact_ty_name cty]

end

/-- Type names emitted by `generate_compact_struct` for a declaration. -/
def generate_compact_struct_tys (ty : String) (fields : NFields) : List String :=
  compact_tys_fields fields ++ [compact_ty_name ty]

mutual

def config_tys_fields : NFields → List String
  | .nil => []
  | .cons f fs => config_tys_item f ++ config_tys_fields fs

def config_tys_item : NItem → List String
  | .leaf _ => []
  | .node _ cty cfs => config_tys_fields cfs ++ [cty]

end

/-- Type names emitted by `generate_config_structs` for a declaration. -/
def generate_config_structs_tys (ty : String) (fields : NFields) : List String :=
  config_tys_fields fields ++ [ty]

/-- All struct definitions emitted by `config_struct!`: the compact mirrors
followed by the Snapshot structs.  The macro emits this output for every
well-parsed input, unconditionally. -/
def config_struct_output_tys (ty : String) (fields : NFields) : List String :=
  generate_compact_struct_tys ty fields ++ generate_config_structs_tys ty fields

/-! The type identifiers of the schema nodes themselves. -/

mutual

def nested_node_tys_fields : NFields → List String
  | .nil => []
  | .cons f fs => nested_node_tys_item f ++ nested_node_tys_fields fs

def nested_node_tys_item : NItem → List String
  | .leaf _ => []
  | .node _ cty cfs => cty :: nested_node_tys_fields cfs

end

/-- All node type identifiers of a declaration (root included). -/
def node_tys (ty : String) (fields : NFields) : List String :=
  ty :: nested_node_tys_fields fields

mutual

theorem config_tys_count_fields : ∀ (fs : NFields) (t : String),
    List.count t (config_tys_fields fs) =
      List.count t (nested_node_tys_fields fs) := by
  intro fs t
  match fs with
  | .nil => rfl
  | .cons f tl =>
    rw [config_tys_fields, nested_node_tys_fields, List.count_append,
      List.count_append, config_tys_count_fields tl t, config_tys_count_item f t]

theorem config_tys_count_item : ∀ (f : NItem) (t : String),
    List.count t (config_tys_item f) = List.count t (nested_node_tys_item f) := by
  intro f t
  match f with
  | .leaf _ => rfl
  | .node _ cty cfs =>
    simp only [config_tys_item, nested_node_tys_item, List.count_append,
      List.count_cons, List.count_singleton, List.count_nil,
      config_tys_count_fields cfs t]
    omega

end

/-- A duplicate-type schema: `Dup { a: X { leaf }, b: X { leaf } }`. -/
def dupSchemaFields : NFields :=
  .cons (.node false "X" (.cons (.leaf false) .nil))
    (.cons (.node false "X" (.cons (.leaf false) .nil)) .nil)

/-- Claim C8 counterexample: for a concrete schema containing two nodes with
the same type identifier `X`, `config_struct!` does not reject the input:
it emits code (one struct definition per node, root included), refuting that
the macro reports a fatal error before any code is emitted. -/
theorem claim_C8_counterexample :
    1 < List.count "X" (node_tys "Dup" dupSchemaFields) ∧
      config_struct_output_tys "Dup" dupSchemaFields ≠ [] := by
  constructor
  · decide
  · decide

/-- Claim C8 amended: `config_struct!` performs no duplicate-type validation
and emits its output unconditionally; a schema with a duplicated node type
identifier yields duplicate emitted struct definitions (the duplicated name
occurs more than once among the emitted type names), so the build still
fails — but at the surrounding compiler's name-conflict check, after code
emission, not via a macro-reported declaration-site error. -/
theorem claim_C8_no_duplicate_check (ty : String) (fields : NFields)
    (t : String) (hdup : 1 < List.count t (node_tys ty fields)) :
    config_struct_output_tys ty fields ≠ [] ∧
      1 < List.count t (config_struct_output_tys ty fields) := by
  constructor
  · rw [config_struct_output_tys, generate_compact_struct_tys]
    simp
  · rw [config_struct_output_tys, List.count_append]
    have h2 : List.count t (generate_config_structs_tys ty fields) =
        List.count t (node_tys ty fields) := by
      simp only [generate_config_structs_tys, node_tys, List.count_append,
        List.count_cons, List.count_singleton, List.count_nil,
        config_tys_count_fields]
      omega
    omega

theorem claim_C8_witness :
    config_struct_output_tys "Dup" dupSchemaFields ≠ [] ∧
      1 < List.count "X" (config_struct_output_tys "Dup" dupSchemaFields) :=
  claim_C8_no_duplicate_check "Dup" dupSchemaFields "X" (by decide)

/-! ## C5: derived sub-fetchers perform no caching

A `ConfigFetcher` is an object whose successive `latest_snapshot` calls may
observe an evolving external world (e.g. the `GatedFetcher` in the tests);
the world is threaded explicitly as a state `σ`: one call returns a snapshot
and the next world state. -/

structure StFetcher (σ α : Type) where
  latest_snapshot : σ → α × σ

/-- The `shared_fetcher_from_fn` wrapper: `WrappedFetcher { inner: fetcher }`,
whose `latest_snapshot` just invokes the stored closure. -/
def shared_fetcher_from_fn {σ α : Type} (fetcher : σ → α × σ) : StFetcher σ α :=
  ⟨fetcher⟩

/-- The derived sub-fetcher (`as_shared_fetcher`): the installed closure calls
the parent's `latest_snapshot` and applies the projection (`share`) to the
result, on every call; it holds no state of its own. -/
def as_shared_fetcher {σ α β : Type} (fetcher : StFetcher σ α)
    (share : α → β) : StFetcher σ β :=
  shared_fetcher_from_fn (fun s =>
    let (snapshot, s2) := fetcher.latest_snapshot s
    (share snapshot, s2))

/-- The snapshots returned by `n` successive `latest_snapshot` calls. -/
def run_calls {σ α : Type} (f : StFetcher σ α) : σ → Nat → List α
  | _, 0 => []
  | s, n + 1 =>
    let (a, s2) := f.latest_snapshot s
    a :: run_calls f s2 n

/-- Claim C5: the sub-fetcher derived via `as_shared_fetcher` performs no
caching — each of its `latest_snapshot` calls invokes the parent's
`latest_snapshot` and applies the projection to the result, so if the parent
returns `G1, G2, G3, ...` on successive calls the sub-fetcher returns
`P G1, P G2, P G3, ...` on its successive calls, in the same order. -/
theorem claim_C5_sub_fetcher_no_caching {σ α β : Type} (f : StFetcher σ α)
    (share : α → β) (s : σ) (n : Nat) :
    run_calls (as_shared_fetcher f share) s n = (run_calls f s n).map share := by
  induction n generalizing s with
  | zero => rfl
  | succ n ih =>
    rcases hfs : f.latest_snapshot s with ⟨a, s2⟩
    simp [run_calls, as_shared_fetcher, shared_fetcher_from_fn, hfs]
    exact ih s2

/-! ## The global feature tracker (conspiracy/src/feature_control.rs)

The runtime keeps two statics: `GLOBAL_TRACKER_INIT` (an atomic holding
UNINITIALIZED / INITIALIZING / INITIALIZED) and `GLOBAL_TRACKER` (a reference
to a `dyn FeatureTracker`, initially `NO_TRACKER`).  A provider is modelled
by what its `static_feature_state` probe returns: the concrete type tag of
the `Arc<dyn Any>` state it produces (`NoTracker` panics instead). -/

inductive InitFlag : Type where
  | uninitialized
  | initializing
  | initialized
deriving DecidableEq

inductive TrackerModel : Type where
  | noTracker
  | conspiracyTracker (stateTy : Nat)
deriving DecidableEq

/-- The pair of statics guarded by the atomic flag. -/
structure GlobalSlot : Type where
  flag : InitFlag
  tracker : TrackerModel
deriving DecidableEq

/-! ### C6: the registration race

`set_global_tracker_from_ref` executes two atomic steps: the
`compare_exchange(UNINITIALIZED, INITIALIZING)` and — only for the winner —
the store of the provider followed by the `store(INITIALIZED)` publish.  A
system holds the slot plus one phase per caller; a schedule is an arbitrary
interleaving of the callers' atomic steps. -/

inductive RegResult : Type where
  | ok
  | alreadySet
deriving DecidableEq

inductive CallerPhase : Type where
  | ready
  | storing
  | finished (r : RegResult)
deriving DecidableEq

structure RegSys : Type where
  slot : GlobalSlot
  callers : List CallerPhase
deriving DecidableEq

/-- One atomic step by caller `i`: a `ready` caller runs the CAS (winning
only from `uninitialized`, losers return `GlobalTrackerAlreadySet` without
touching the slot); a `storing` caller (the CAS winner) stores its provider
and publishes `INITIALIZED`, returning `Ok`. -/
def reg_step (providers : List TrackerModel) (sys : RegSys) (i : Nat) : RegSys :=
  match sys.callers.get? i with
  | some .ready =>
    match sys.slot.flag with
    | .uninitialized =>
      { slot := { flag := .initializing, tracker := sys.slot.tracker },
        callers := sys.callers.set i .storing }
    | _ =>
      { slot := sys.slot,
        callers := sys.callers.set i (.finished .alreadySet) }
  | some .storing =>
    { slot := { flag := .initialized, tracker := providers.getD i .noTracker },
      callers := sys.callers.set i (.finished .ok) }
  | _ => sys

def reg_run (providers : List TrackerModel) (sys : RegSys) : List Nat → RegSys
  | [] => sys
  | i :: rest => reg_run providers (reg_step providers sys i) rest

/-- Initial state: slot uninitialized holding `NO_TRACKER`, `n` pending
callers. -/
def initRegSys (n : Nat) : RegSys :=
  ⟨⟨.uninitialized, .noTracker⟩, List.replicate n .ready⟩

/-- Indicator for the CAS-winner-before-publish phase. -/
def isStoring (c : CallerPhase) : Nat := if c = .storing then 1 else 0

/-- Indicator for a completed successful registration. -/
def isOk (c : CallerPhase) : Nat := if c = .finished .ok then 1 else 0

def storingCount : List CallerPhase → Nat
  | [] => 0
  | c :: tl => isStoring c + storingCount tl

def okCount : List CallerPhase → Nat
  | [] => 0
  | c :: tl => isOk c + okCount tl

/-! Small list facts used by the invariant proof. -/

theorem get?_set_self {α : Type} : ∀ (l : List α) (i : Nat) (x c : α),
    l.get? i = some c → (l.set i x).get? i = some x := by
  intro l i x c h
  match l, i, h with
  | y :: tl, 0, h => rfl
  | y :: tl, n + 1, h => exact get?_set_self tl n x c h

theorem get?_set_ne {α : Type} : ∀ (l : List α) (i j : Nat) (x : α),
    i ≠ j → (l.set i x).get? j = l.get? j := by
  intro l i j x hne
  match l, i, j with
  | [], _, _ => simp [List.set]
  | y :: tl, 0, 0 => exact absurd rfl hne
  | y :: tl, 0, j + 1 => rfl
  | y :: tl, i + 1, 0 => rfl
  | y :: tl, i + 1, j + 1 =>
    rw [List.set]
    rw [List.get?]
    rw [List.get?]
    exact get?_set_ne tl i j x (by omega)

theorem storingCount_set_add : ∀ (cs : List CallerPhase) (i : Nat)
    (c x : CallerPhase), cs.get? i = some c →
    storingCount (cs.set i x) + isStoring c = storingCount cs + isStoring x := by
  intro cs i c x h
  match cs, i, h with
  | y :: tl, 0, h =>
    rw [List.get?] at h
    cases h
    rw [List.set, storingCount, storingCount]
    omega
  | y :: tl, n + 1, h =>
    rw [List.get?] at h
    rw [List.set, storingCount, storingCount]
    have := storingCount_set_add tl n c x h
    omega

theorem okCount_set_add : ∀ (cs : List CallerPhase) (i : Nat)
    (c x : CallerPhase), cs.get? i = some c →
    okCount (cs.set i x) + isOk c = okCount cs + isOk x := by
  intro cs i c x h
  match cs, i, h with
  | y :: tl, 0, h =>
    rw [List.get?] at h
    cases h
    rw [List.set, okCount, okCount]
    omega
  | y :: tl, n + 1, h =>
    rw [List.get?] at h
    rw [List.set, okCount, okCount]
    have := okCount_set_add tl n c x h
    omega

theorem okCount_ge_one : ∀ (cs : List CallerPhase) (i : Nat),
    cs.get? i = some (.finished .ok) → 1 ≤ okCount cs := by
  intro cs i h
  match cs, i, h with
  | y :: tl, 0, h =>
    rw [List.get?] at h
    cases h
    simp [okCount, isOk]
  | y :: tl, n + 1, h =>
    rw [List.get?] at h
    rw [okCount]
    have := okCount_ge_one tl n h
    omega

theorem storingCount_ge_one : ∀ (cs : List CallerPhase) (i : Nat),
    cs.get? i = some .storing → 1 ≤ storingCount cs := by
  intro cs i h
  match cs, i, h with
  | y :: tl, 0, h =>
    rw [List.get?] at h
    cases h
    simp [storingCount, isStoring]
  | y :: tl, n + 1, h =>
    rw [List.get?] at h
    rw [storingCount]
    have := storingCount_ge_one tl n h
    omega

theorem okCount_unique : ∀ (cs : List CallerPhase), okCount cs ≤ 1 →
    ∀ (i j : Nat), cs.get? i = some (.finished .ok) →
    cs.get? j = some (.finished .ok) → i = j := by
  intro cs
  induction cs with
  | nil =>
    intro _ i j hi _
    exact absurd hi (by simp [List.get?])
  | cons y tl ih =>
    intro hle i j hi hj
    cases i with
    | zero =>
      cases j with
      | zero => rfl
      | succ j =>
        simp only [List.get?] at hi hj
        cases hi
        simp [okCount, isOk] at hle
        have := okCount_ge_one tl j hj
        omega
    | succ i =>
      cases j with
      | zero =>
        simp only [List.get?] at hi hj
        cases hj
        simp [okCount, isOk] at hle
        have := okCount_ge_one tl i hi
        omega
      | succ j =>
        simp only [List.get?] at hi hj
        rw [okCount] at hle
        have h2 : okCount tl ≤ 1 := by omega
        have := ih h2 i j hi hj
        omega

theorem storingCount_replicate : ∀ n : Nat,
    storingCount (List.replicate n .ready) = 0 := by
  intro n
  induction n with
  | zero => rfl
  | succ n ih =>
    rw [List.replicate, storingCount, ih]
    simp [isStoring]

theorem okCount_replicate : ∀ n : Nat,
    okCount (List.replicate n .ready) = 0 := by
  intro n
  induction n with
  | zero => rfl
  | succ n ih =>
    rw [List.replicate, okCount, ih]
    simp [isOk]

/-- The registration invariant tying the atomic flag to the callers'
phases and the stored provider. -/
def RegInv (providers : List TrackerModel) (sys : RegSys) : Prop :=
  match sys.slot.flag with
  | .uninitialized =>
    storingCount sys.callers = 0 ∧ okCount sys.callers = 0 ∧
      sys.slot.tracker = .noTracker
  | .initializing =>
    storingCount sys.callers = 1 ∧ okCount sys.callers = 0 ∧
      sys.slot.tracker = .noTracker
  | .initialized =>
    storingCount sys.callers = 0 ∧ okCount sys.callers = 1 ∧
      ∃ w, sys.callers.get? w = some (.finished .ok) ∧
        sys.slot.tracker = providers.getD w .noTracker

theorem reg_inv_step (providers : List TrackerModel) (sys : RegSys) (i : Nat)
    (h : RegInv providers sys) : RegInv providers (reg_step providers sys i) := by
  rcases hg : sys.callers.get? i with - | c
  · simp only [RegInv, reg_step, hg]
    exact h
  cases c with
  | ready =>
    have hst := storingCount_set_add sys.callers i .ready .storing hg
    have hst2 := storingCount_set_add sys.callers i .ready (.finished .alreadySet) hg
    have hok := okCount_set_add sys.callers i .ready .storing hg
    have hok2 := okCount_set_add sys.callers i .ready (.finished .alreadySet) hg
    simp [isStoring, isOk] at hst hok hst2 hok2
    cases hf : sys.slot.flag with
    | uninitialized =>
      rw [RegInv, hf] at h
      obtain ⟨h1, h2, h3⟩ := h
      simp only [RegInv, reg_step, hg, hf]
      exact ⟨by omega, by omega, h3⟩
    | initializing =>
      rw [RegInv, hf] at h
      obtain ⟨h1, h2, h3⟩ := h
      simp only [RegInv, reg_step, hg, hf]
      exact ⟨by omega, by omega, h3⟩
    | initialized =>
      rw [RegInv, hf] at h
      obtain ⟨h1, h2, w, hw1, hw2⟩ := h
      simp only [RegInv, reg_step, hg, hf]
      refine ⟨by omega, by omega, ⟨w, ?_, hw2⟩⟩
      have hwne : i ≠ w := by
        intro he
        rw [← he, hg] at hw1
        exact absurd hw1 (by simp)
      rw [get?_set_ne sys.callers i w _ hwne]
      exact hw1
  | storing =>
    have hst1 := storingCount_ge_one sys.callers i hg
    cases hf : sys.slot.flag with
    | uninitialized =>
      rw [RegInv, hf] at h
      omega
    | initialized =>
      rw [RegInv, hf] at h
      obtain ⟨h1, -⟩ := h
      omega
    | initializing =>
      rw [RegInv, hf] at h
      obtain ⟨h1, h2, h3⟩ := h
      have hst := storingCount_set_add sys.callers i .storing (.finished .ok) hg
      have hok := okCount_set_add sys.callers i .storing (.finished .ok) hg
      simp [isStoring, isOk] at hst hok
      simp only [RegInv, reg_step, hg]
      refine ⟨by omega, by omega, ⟨i, ?_, rfl⟩⟩
      exact get?_set_self sys.callers i _ _ hg
  | finished r =>
    simp only [RegInv, reg_step, hg]
    exact h

theorem reg_inv_run (providers : List TrackerModel) (sys : RegSys)
    (sched : List Nat) (h : RegInv providers sys) :
    RegInv providers (reg_run providers sys sched) := by
  induction sched generalizing sys with
  | nil => exact h
  | cons i rest ih =>
    rw [reg_run]
    exact ih _ (reg_inv_step providers sys i h)

theorem reg_inv_init (providers : List TrackerModel) (n : Nat) :
    RegInv providers (initRegSys n) := by
  rw [RegInv, initRegSys]
  exact ⟨storingCount_replicate n, okCount_replicate n, rfl⟩

/-- Claim C6: in every interleaving of `set_global_tracker_from_ref` calls,
at most one call succeeds — the caller whose CAS moves the slot out of
`Uninitialized`; a caller whose CAS runs against an already-moved slot
returns `GlobalTrackerAlreadySet` immediately, leaving the slot (flag and
stored provider) unchanged; and whenever a caller has completed with `Ok`,
the slot is `Initialized` and holds that caller's provider. -/
theorem claim_C6_single_registration (providers : List TrackerModel) (n : Nat)
    (sched : List Nat) :
    (okCount (reg_run providers (initRegSys n) sched).callers ≤ 1) ∧
    (∀ i j : Nat,
      (reg_run providers (initRegSys n) sched).callers.get? i =
        some (.finished .ok) →
      (reg_run providers (initRegSys n) sched).callers.get? j =
        some (.finished .ok) → i = j) ∧
    (∀ i : Nat,
      (reg_run providers (initRegSys n) sched).callers.get? i =
        some (.finished .ok) →
      (reg_run providers (initRegSys n) sched).slot.flag = .initialized ∧
      (reg_run providers (initRegSys n) sched).slot.tracker =
        providers.getD i .noTracker) ∧
    (∀ (sys : RegSys) (i : Nat), sys.callers.get? i = some .ready →
      sys.slot.flag ≠ .uninitialized →
      (reg_step providers sys i).slot = sys.slot ∧
      (reg_step providers sys i).callers.get? i =
        some (.finished .alreadySet)) := by
  have hinv := reg_inv_run providers (initRegSys n) sched
    (reg_inv_init providers n)
  have hok : okCount (reg_run providers (initRegSys n) sched).callers ≤ 1 := by
    rw [RegInv] at hinv
    cases hf : (reg_run providers (initRegSys n) sched).slot.flag <;>
      rw [hf] at hinv <;> omega
  refine ⟨hok, ?_, ?_, ?_⟩
  · intro i j hi hj
    exact okCount_unique _ hok i j hi hj
  · intro i hi
    rw [RegInv] at hinv
    cases hf : (reg_run providers (initRegSys n) sched).slot.flag with
    | uninitialized =>
      rw [hf] at hinv
      have := okCount_ge_one _ i hi
      omega
    | initializing =>
      rw [hf] at hinv
      have := okCount_ge_one _ i hi
      omega
    | initialized =>
      rw [hf] at hinv
      obtain ⟨h1, h2, w, hw1, hw2⟩ := hinv
      have hiw : i = w := okCount_unique _ (by omega) i w hi hw1
      rw [hiw]
      exact ⟨rfl, hw2⟩
  · intro sys i hready hflag
    cases hf : sys.slot.flag with
    | uninitialized => exact absurd hf hflag
    | initializing =>
      rw [reg_step, hready, hf]
      exact ⟨rfl, get?_set_self sys.callers i _ _ hready⟩
    | initialized =>
      rw [reg_step, hready, hf]
      exact ⟨rfl, get?_set_self sys.callers i _ _ hready⟩

/-- Witness for C6: two callers, schedule CAS(0), CAS(1), publish(0): caller
0 wins, caller 1 loses with `AlreadySet`, the slot ends initialized with
caller 0's provider. -/
theorem claim_C6_witness :
    (reg_run [TrackerModel.conspiracyTracker 7, TrackerModel.conspiracyTracker 9]
        (initRegSys 2) [0, 1, 0]).callers.get? 0 = some (.finished .ok) ∧
    (reg_run [TrackerModel.conspiracyTracker 7, TrackerModel.conspiracyTracker 9]
        (initRegSys 2) [0, 1, 0]).slot.flag = .initialized ∧
    (reg_run [TrackerModel.conspiracyTracker 7, TrackerModel.conspiracyTracker 9]
        (initRegSys 2) [0, 1, 0]).slot.tracker =
      TrackerModel.conspiracyTracker 7 := by
  have h := (claim_C6_single_registration
    [TrackerModel.conspiracyTracker 7, TrackerModel.conspiracyTracker 9] 2
    [0, 1, 0]).2.2.1 0 (by decide)
  exact ⟨by decide, h.1, by decide⟩

/-! ## C7: `BadCast` after a completed registration, and the unchecked read

`set_global_tracker::<T, C>` first runs `set_global_tracker_from_ref` (the
registration itself) and, when that wins, probes the stored provider once:
`GLOBAL_TRACKER.static_feature_state().is::<T>()`; a mismatch returns
`SetGlobalTrackerError::BadCast` while the slot stays `Initialized` holding
the provider.  The probe result of a provider is modelled by the type tag of
the `Arc<dyn Any>` it returns (`none` models the `NoTracker` panic).  The
sequential composition below collapses the winner's CAS and publish into one
step; the interleaved model above (`reg_step`) justifies this for the
race-free case.  An `Option` result models termination: `none` is a panic. -/

inductive SetGlobalTrackerError : Type where
  | globalTrackerAlreadySet
  | badCast
deriving DecidableEq

inductive FeatureEnabledError : Type where
  | noGlobalTracker
  | badCast
deriving DecidableEq

/-- What `static_feature_state` produces: the concrete type tag of the
returned `Arc<dyn Any>`; `NoTracker::static_feature_state` panics. -/
def static_feature_state : TrackerModel → Option Nat
  | .noTracker => none
  | .conspiracyTracker stateTy => some stateTy

/-- Sequential `set_global_tracker_from_ref`: the CAS winner stores the
provider and publishes `INITIALIZED`; any other call returns
`GlobalTrackerAlreadySet` and leaves the slot untouched. -/
def set_global_tracker_from_ref (tracker : TrackerModel) (g : GlobalSlot) :
    Except SetGlobalTrackerError Unit × GlobalSlot :=
  match g.flag with
  | .uninitialized => (.ok (), ⟨.initialized, tracker⟩)
  | _ => (.error .globalTrackerAlreadySet, g)

/-- `set_global_tracker::<T, C>`: register, then validate the provider's
probed state type against the caller's expected type `T`. -/
def set_global_tracker (expectedTy : Nat) (tracker : TrackerModel)
    (g : GlobalSlot) :
    Option (Except SetGlobalTrackerError Unit × GlobalSlot) :=
  match set_global_tracker_from_ref tracker g with
  | (.error e, g2) => some (.error e, g2)
  | (.ok _, g2) =>
    match static_feature_state g2.tracker with
    | none => none
    | some ty =>
      if ty = expectedTy then some (.ok (), g2)
      else some (.error .badCast, g2)

/-- `feature_state_inner::<T>`: probe the global tracker and downcast to `T`;
the downcast failure is the `BadCast` error value. -/
def feature_state_inner (expectedTy : Nat) (g : GlobalSlot) :
    Option (Except FeatureEnabledError Nat) :=
  match static_feature_state g.tracker with
  | none => none
  | some ty => some (if ty = expectedTy then .ok ty else .error .badCast)

/-- `feature_state_unchecked::<T>` (the non-test read path of
`feature_enabled!`): `feature_state_inner().expect("Bad cast")` — it either
returns the downcast state or terminates the process; `none` models the
panic. -/
def feature_state_unchecked (expectedTy : Nat) (g : GlobalSlot) : Option Nat :=
  match feature_state_inner expectedTy g with
  | none => none
  | some (.ok v) => some v
  | some (.error _) => none

/-- `global_tracker_set`: the relaxed load checking for `INITIALIZED`. -/
def global_tracker_set (g : GlobalSlot) : Bool :=
  decide (g.flag = .initialized)

/-- `try_feature_state::<T>` (checked accessor): `NoGlobalTracker` before
registration, otherwise the inner probe. -/
def try_feature_state (expectedTy : Nat) (g : GlobalSlot) :
    Option (Except FeatureEnabledError Nat) :=
  if global_tracker_set g then feature_state_inner expectedTy g
  else some (.error .noGlobalTracker)

/-- Claim C7: when `set_global_tracker` wins the registration from the
uninitialized slot but the provider's probed state type differs from the
caller's expected type, the call returns `BadCast` even though registration
completed — the slot is left `Initialized` holding the mismatched provider —
and a subsequent unchecked feature read in non-test mode terminates (the
model returns `none`, the code panics via `expect`) instead of returning any
value. -/
theorem claim_C7_bad_cast_after_registration (expectedTy sTy : Nat)
    (hne : sTy ≠ expectedTy) :
    set_global_tracker expectedTy (.conspiracyTracker sTy)
        ⟨.uninitialized, .noTracker⟩ =
      some (.error .badCast, ⟨.initialized, .conspiracyTracker sTy⟩) ∧
    feature_state_unchecked expectedTy
        ⟨.initialized, .conspiracyTracker sTy⟩ = none := by
  constructor
  · simp [set_global_tracker, set_global_tracker_from_ref,
      static_feature_state, hne]
  · simp [feature_state_unchecked, feature_state_inner,
      static_feature_state, hne]

theorem claim_C7_witness :
    set_global_tracker 2 (.conspiracyTracker 1)
        ⟨.uninitialized, .noTracker⟩ =
      some (.error .badCast, ⟨.initialized, .conspiracyTracker 1⟩) ∧
    feature_state_unchecked 2 ⟨.initialized, .conspiracyTracker 1⟩ = none :=
  claim_C7_bad_cast_after_registration 2 1 (by decide)

/-! ## Feature schema compiler (conspiracy_macros/src/feature_control.rs)

A feature is a (PascalCase name, default) pair from the `define_features!`
input.  Identifier mangling matters here: the generated per-flag default
functions are named with `convert_case`'s `Case::Snake`
(`format_ident!("default_{}", name.to_case(Case::Snake))` in
`Features::default_fns`), while the test-mode call site generated by
`generate_call_field_default_fn` names the function with plain
`str::to_lowercase`. -/

structure Feature : Type where
  name : String
  default : Bool
deriving DecidableEq

/-- Case::Snake of `convert_case` restricted to alphabetic identifiers: a
word boundary falls between a lowercase and an uppercase letter, and inside
an acronym before its last capital when a lowercase letter follows; words
are joined with an underscore and lowercased. -/
def snakeCore : Char → List Char → List Char
  | _, [] => []
  | prev, c :: rest =>
    let nextIsLower := match rest with
      | d :: _ => d.isLower
      | [] => false
    let boundary := (prev.isLower && c.isUpper) ||
      (prev.isUpper && c.isUpper && nextIsLower)
    (if boundary then [Char.ofNat 95, c.toLower] else [c.toLower]) ++
      snakeCore c rest

def to_case_snake (s : String) : String :=
  match s.toList with
  | [] => ""
  | c :: rest => String.mk (c.toLower :: snakeCore c rest)

def to_lowercase (s : String) : String :=
  String.mk (s.toList.map Char.toLower)

/-- `Features::default_fns`: one `pub fn default_{snake name}() -> bool`
returning the declared default, per feature. -/
def default_fns (features : List Feature) : List (String × Bool) :=
  features.map (fun f => ("default_" ++ to_case_snake f.name, f.default))

/-- `generate_call_field_default_fn`: the function name referenced by the
generated fallback call `<State>::default_{variant.to_lowercase()}()`. -/
def generate_call_field_default_fn (variantName : String) : String :=
  "default_" ++ to_lowercase variantName

/-- Rust name resolution of a generated call against the generated impl:
`none` means the named function does not exist (a compile error). -/
def lookup_fn (fns : List (String × Bool)) (n : String) : Option Bool :=
  (fns.find? (fun p => p.1 == n)).map (fun p => p.2)

/-- The `cfg(test)` expansion of `feature_enabled!` with no global tracker
registered: `try_feature_state` returns `Err(NoGlobalTracker)` (see the
conjunct in the theorem below), and the `Err` arm evaluates the generated
default call, which resolves against the generated default functions. -/
def feature_enabled_test_mode_no_tracker (features : List Feature)
    (variantName : String) : Option Bool :=
  lookup_fn (default_fns features) (generate_call_field_default_fn variantName)

/-- The example feature schema `{Foo => false, Bar => true}`. -/
def exFeatures : List Feature := [⟨"Foo", false⟩, ⟨"Bar", true⟩]

/-- A schema with a multi-word flag name. -/
def exMultiFeatures : List Feature := [⟨"OptimizedHashComputation", true⟩]

/-- Claim C2 (code bug): with no global tracker, the checked probe indeed
reports `NoGlobalTracker` and the test-mode accessor returns the compiled-in
default for single-word flags (`Foo ↦ false`, `Bar ↦ true`); but for the
multi-word flag `OptimizedHashComputation` the call site generated with
`to_lowercase` names `default_optimizedhashcomputation`, while the impl
generated with `Case::Snake` defines `default_optimized_hash_computation`,
so the generated call resolves to nothing (a compile error) instead of the
default — refuting the claim for multi-word names. -/
theorem claim_C2_default_name_mismatch :
    (∀ ty : Nat, try_feature_state ty ⟨.uninitialized, .noTracker⟩ =
      some (.error .noGlobalTracker)) ∧
    feature_enabled_test_mode_no_tracker exFeatures "Foo" = some false ∧
    feature_enabled_test_mode_no_tracker exFeatures "Bar" = some true ∧
    feature_enabled_test_mode_no_tracker exMultiFeatures
      "OptimizedHashComputation" = none ∧
    to_case_snake "OptimizedHashComputation" = "optimized_hash_computation" ∧
    to_lowercase "OptimizedHashComputation" = "optimizedhashcomputation" ∧
    lookup_fn (default_fns exMultiFeatures)
      "default_optimized_hash_computation" = some true := by
  refine ⟨?_, by decide, by decide, by decide, by decide, by decide, by decide⟩
  intro ty
  rfl

/-! ## C10: the generated feature-state builder

`make_builder` generates `Builder::new()` holding `State::default()` (the
`Default` impl fills every field from its `default_{snake}` function, i.e.
the declared default), one setter per flag assigning only that flag's field,
and `build()` returning the accumulated state.  The state record is modelled
positionally: one boolean per declared flag. -/

/-- The generated `Default` impl: every field holds its declared default. -/
def default_state (features : List Feature) : List Bool :=
  features.map (fun f => f.default)

/-- `Builder::new()`: `Self { state: State::default() }`. -/
def builder_new (features : List Feature) : List Bool :=
  default_state features

/-- A generated setter: `self.state.#field = value; self`. -/
def builder_set (state : List Bool) (i : Nat) (v : Bool) : List Bool :=
  state.set i v

/-- `build()`: returns the accumulated state. -/
def builder_build (state : List Bool) : List Bool :=
  state

theorem get?_set_self_lt {α : Type} : ∀ (l : List α) (i : Nat) (x : α),
    i < l.length → (l.set i x).get? i = some x := by
  intro l i x h
  match l, i with
  | [], _ => exact absurd h (by simp)
  | y :: tl, 0 => rfl
  | y :: tl, n + 1 =>
    rw [List.set]
    rw [List.get?]
    exact get?_set_self_lt tl n x (by simpa using h)

/-- Claim C10: a freshly created builder holds exactly the schema's default
value for every flag (`builder().build()` equals `State::default()`); each
setter writes only its own flag's field and leaves every other field
unchanged; `build()` returns exactly the accumulated state. -/
theorem claim_C10_builder_frame (features : List Feature) :
    builder_build (builder_new features) = default_state features ∧
    (∀ (st : List Bool) (i : Nat) (v : Bool), i < st.length →
      (builder_set st i v).get? i = some v) ∧
    (∀ (st : List Bool) (i j : Nat) (v : Bool), i ≠ j →
      (builder_set st i v).get? j = st.get? j) := by
  refine ⟨rfl, ?_, ?_⟩
  · intro st i v h
    exact get?_set_self_lt st i v h
  · intro st i j v h
    exact get?_set_ne st i j v h

theorem claim_C10_witness :
    builder_build (builder_new exFeatures) = default_state exFeatures ∧
    (builder_set [false, true] 0 true).get? 0 = some true ∧
    (builder_set [false, true] 0 true).get? 1 = some true := by
  have h := claim_C10_builder_frame exFeatures
  refine ⟨h.1, ?_, ?_⟩
  · exact h.2.1 [false, true] 0 true (by decide)
  · exact h.2.2 [false, true] 0 1 true (by decide)

end Conspiracy
